import Mathlib

/-!
# Log-linear and log-cubic interpolation (`ql/math/interpolations/loginterpolation.hpp`)

A shallow embedding of the two implementation classes, the two public handles and
the two factory traits of `loginterpolation.hpp`, followed by the properties proved
about them.

Conventions of the embedding:

* `Real` of the source is an arbitrary linearly ordered field `R`; `std::log` and
  `std::exp` are passed as functions `log exp : R → R`.  Statements "over exact reals"
  instantiate `R := ℝ`, `log := Real.log`, `exp := Real.exp`.
* An iterator range `[xBegin_, xEnd_)` is the list of its values; the iterator
  `yBegin_` is the list of values of the caller's buffer it points into, read with
  `yBegin.getD i 0` (the source reads `yBegin_[i]` only for `i < xEnd_ - xBegin_`).
* A member function that can throw returns `Except`; a member function that mutates
  the object and can throw returns the outcome together with the object as the
  exception leaves it.
* `linearinterpolation.hpp` and `cubicspline.hpp` are not part of the sources at hand;
  the operations the code uses from them are the fields of `LinearAlgorithm` and
  `CubicSplineAlgorithm`.
* The wrapped instance of the source keeps iterators into `x` and `logY_`, not copies
  of the data (`LinearInterpolation(xBegin_, xEnd_, logY_.begin())`).  Its `update`
  and `evaluate` therefore take, besides the instance, the current contents of the two
  ranges those iterators point into; the implementation passes its own `x` and `logY`.
-/

namespace QuantLib

/-- Failures raised through `QL_REQUIRE` / `QL_FAIL` in `loginterpolation.hpp`, and
failures propagated from the wrapped algorithm.
* `invalidValue v i` is the message `"invalid value (" << v << ") at index " << i`;
* `notImplemented what` is the message `what` followed by `" not implemented"`;
* `wrapped msg` is an error thrown inside the wrapped linear / cubic-spline code. -/
inductive Error (R : Type) where
  | invalidValue (value : R) (index : Nat)
  | notImplemented (what : String)
  | wrapped (message : String)
  deriving DecidableEq

/-- Modelled from the spec: `CubicSplineInterpolation::BoundaryCondition`, declared in
the missing `cubicspline.hpp`; the spec lists the kinds not-a-knot, first-derivative,
second-derivative and periodic. -/
inductive BoundaryCondition where
  | NotAKnot
  | FirstDerivative
  | SecondDerivative
  | Periodic
  deriving DecidableEq

/-- Modelled from the spec: what the code consumes from the linear-interpolation
algorithm of the missing `linearinterpolation.hpp`: the handle type `Interpolation`,
its default-constructed (empty) value, the constructor
`LinearInterpolation(xBegin, xEnd, yBegin)`, `update()` and
`operator()(x, allowExtrapolation)`.  Constructor and `update()` may throw.  The two
list arguments of each operation are the contents, at the time of the call, of the
abscissa range and of the ordinate buffer the instance's iterators point into. -/
structure LinearAlgorithm (R : Type) where
  Interpolation : Type
  empty : Interpolation
  construct : List R → List R → Except String Interpolation
  update : Interpolation → List R → List R → Except String Unit × Interpolation
  evaluate : Interpolation → List R → List R → R → Bool → Except String R

/-- Modelled from the spec: what the code consumes from the cubic-spline algorithm of
the missing `cubicspline.hpp`.  The constructor takes, in this order, the abscissas,
the ordinates, the left boundary kind and value, the right boundary kind and value,
and the monotonicity flag.  As for `LinearAlgorithm`, the two list arguments are the
current contents of the ranges the instance's iterators point into. -/
structure CubicSplineAlgorithm (R : Type) where
  Interpolation : Type
  empty : Interpolation
  construct : List R → List R → BoundaryCondition → R → BoundaryCondition → R → Bool →
    Except String Interpolation
  update : Interpolation → List R → List R → Except String Unit × Interpolation
  evaluate : Interpolation → List R → List R → R → Bool → Except String R

variable {R : Type} [LinearOrderedField R]

/-- The wrapped linear algorithm built over `(x, y)` and updated once, as the two
statements `interpolation_ = LinearInterpolation(...); interpolation_.update();`
leave it when neither throws. -/
def LinearAlgorithm.fresh (W : LinearAlgorithm R) (x y : List R) :
    Except String W.Interpolation :=
  match W.construct x y with
  | .error e => .error e
  | .ok a =>
    match W.update a x y with
    | (.error e, _) => .error e
    | (.ok (), b) => .ok b

/-- The wrapped cubic-spline algorithm built over `(x, y)` with the given boundary
descriptors and monotonicity flag and updated once. -/
def CubicSplineAlgorithm.fresh (W : CubicSplineAlgorithm R) (x y : List R)
    (leftType : BoundaryCondition) (leftValue : R)
    (rightType : BoundaryCondition) (rightValue : R) (constrained : Bool) :
    Except String W.Interpolation :=
  match W.construct x y leftType leftValue rightType rightValue constrained with
  | .error e => .error e
  | .ok a =>
    match W.update a x y with
    | (.error e, _) => .error e
    | (.ok (), b) => .ok b

namespace detail

/-- The loop shared verbatim by both `update()` bodies (lines 45-50 and 91-96):
```
for (Size i=0; i<logY_.size(); ++i) {
    QL_REQUIRE(this->yBegin_[i]>0.0, "invalid value (" << ... << ") at index " << i);
    logY_[i] = std::log(this->yBegin_[i]);
}
```
`logLoop log yBegin k i logY` runs the `k` remaining iterations starting at index `i`
and returns the outcome and the buffer as it stands when the loop ends or throws. -/
def logLoop (log : R → R) (yBegin : List R) :
    Nat → Nat → List R → Except (Error R) Unit × List R
  | 0, _, logY => (.ok (), logY)
  | k + 1, i, logY =>
    if 0 < yBegin.getD i 0 then
      logLoop log yBegin k (i + 1) (logY.set i (log (yBegin.getD i 0)))
    else
      (.error (.invalidValue (yBegin.getD i 0) i), logY)

/-- State of `detail::LogLinearInterpolationImpl<I1,I2>`: the inherited iterators
(`x` is the range `[xBegin_, xEnd_)`) and the two private members. -/
structure LogLinearInterpolationImpl (R : Type) (W : LinearAlgorithm R) where
  x : List R
  yBegin : List R
  logY : List R
  interpolation : W.Interpolation

/-- State of `detail::LogCubicInterpolationImpl<I1,I2>`. -/
structure LogCubicInterpolationImpl (R : Type) (W : CubicSplineAlgorithm R) where
  x : List R
  yBegin : List R
  logY : List R
  interpolation : W.Interpolation
  constrained : Bool
  leftType : BoundaryCondition
  rightType : BoundaryCondition
  leftValue : R
  rightValue : R

namespace LogLinearInterpolationImpl

variable {W : LinearAlgorithm R}

/-- Constructor (lines 40-43): stores the iterators, sizes `logY_` to `xEnd-xBegin`
(value-initialised) and default-constructs `interpolation_`.  The base-class constructor
`Interpolation::templateImpl` is declared in the missing `interpolation.hpp`; modelled
from the spec, which has construction store the pair without validating it. -/
def new (W : LinearAlgorithm R) (xs ys : List R) : LogLinearInterpolationImpl R W :=
  { x := xs, yBegin := ys, logY := List.replicate xs.length 0, interpolation := W.empty }

/-- Member `update()` (lines 44-55).  When `QL_REQUIRE` throws inside the loop,
`interpolation_` is not reassigned: the object keeps the old instance, whose iterator
now points at the partly overwritten `logY_`. -/
def update (log : R → R) (s : LogLinearInterpolationImpl R W) :
    Except (Error R) Unit × LogLinearInterpolationImpl R W :=
  match logLoop log s.yBegin s.logY.length 0 s.logY with
  | (.error e, buf) => (.error e, { s with logY := buf })
  | (.ok (), buf) =>
    match W.construct s.x buf with
    | .error e => (.error (.wrapped e), { s with logY := buf })
    | .ok a =>
      match W.update a s.x buf with
      | (.error e, b) => (.error (.wrapped e), { s with logY := buf, interpolation := b })
      | (.ok (), b) => (.ok (), { s with logY := buf, interpolation := b })

/-- Member `value(x)` (lines 56-58): `std::exp(interpolation_(x, true))`.  The stored
instance reads the knots through its iterators, that is, from `x` and `logY` as they
stand when `value` is called. -/
def value (exp : R → R) (s : LogLinearInterpolationImpl R W) (t : R) : Except (Error R) R :=
  match W.evaluate s.interpolation s.x s.logY t true with
  | .error e => .error (.wrapped e)
  | .ok v => .ok (exp v)

/-- Member `primitive(x)` (lines 59-61). -/
def primitive (_ : LogLinearInterpolationImpl R W) (_ : R) : Except (Error R) R :=
  .error (.notImplemented "LogLinear primitive")

/-- Member `derivative(x)` (lines 62-64). -/
def derivative (_ : LogLinearInterpolationImpl R W) (_ : R) : Except (Error R) R :=
  .error (.notImplemented "LogLinear derivative")

/-- Member `secondDerivative(x)` (lines 65-67). -/
def secondDerivative (_ : LogLinearInterpolationImpl R W) (_ : R) : Except (Error R) R :=
  .error (.notImplemented "LogLinear secondDerivative")

end LogLinearInterpolationImpl

namespace LogCubicInterpolationImpl

variable {W : CubicSplineAlgorithm R}

/-- Constructor (lines 77-89): as for the log-linear implementation, and stores the
five construction parameters member by member. -/
def new (W : CubicSplineAlgorithm R) (xs ys : List R)
    (leftCondition : BoundaryCondition) (leftConditionValue : R)
    (rightCondition : BoundaryCondition) (rightConditionValue : R)
    (monotonicityConstraint : Bool) : LogCubicInterpolationImpl R W :=
  { x := xs, yBegin := ys, logY := List.replicate xs.length 0, interpolation := W.empty,
    constrained := monotonicityConstraint,
    leftType := leftCondition, rightType := rightCondition,
    leftValue := leftConditionValue, rightValue := rightConditionValue }

/-- Member `update()` (lines 90-104).  As for the log-linear implementation, a throw
inside the loop leaves the old instance in place over the partly overwritten
`logY_`. -/
def update (log : R → R) (s : LogCubicInterpolationImpl R W) :
    Except (Error R) Unit × LogCubicInterpolationImpl R W :=
  match logLoop log s.yBegin s.logY.length 0 s.logY with
  | (.error e, buf) => (.error e, { s with logY := buf })
  | (.ok (), buf) =>
    match W.construct s.x buf s.leftType s.leftValue s.rightType s.rightValue
        s.constrained with
    | .error e => (.error (.wrapped e), { s with logY := buf })
    | .ok a =>
      match W.update a s.x buf with
      | (.error e, b) => (.error (.wrapped e), { s with logY := buf, interpolation := b })
      | (.ok (), b) => (.ok (), { s with logY := buf, interpolation := b })

/-- Member `value(x)` (lines 105-107); the stored instance reads `x` and `logY` as
they stand when `value` is called. -/
def value (exp : R → R) (s : LogCubicInterpolationImpl R W) (t : R) : Except (Error R) R :=
  match W.evaluate s.interpolation s.x s.logY t true with
  | .error e => .error (.wrapped e)
  | .ok v => .ok (exp v)

/-- Member `primitive(x)` (lines 108-110). -/
def primitive (_ : LogCubicInterpolationImpl R W) (_ : R) : Except (Error R) R :=
  .error (.notImplemented "LogCubic primitive")

/-- Member `derivative(x)` (lines 111-113). -/
def derivative (_ : LogCubicInterpolationImpl R W) (_ : R) : Except (Error R) R :=
  .error (.notImplemented "LogCubic derivative")

/-- Member `secondDerivative(x)` (lines 114-116). -/
def secondDerivative (_ : LogCubicInterpolationImpl R W) (_ : R) : Except (Error R) R :=
  .error (.notImplemented "LogCubic secondDerivative")

end LogCubicInterpolationImpl

end detail

open detail

/-- Constructor of the public handle `LogLinearInterpolation` (lines 135-141): builds
the implementation and calls `update()` once; an exception leaves no handle. -/
def LogLinearInterpolation (W : LinearAlgorithm R) (log : R → R) (xs ys : List R) :
    Except (Error R) (LogLinearInterpolationImpl R W) :=
  match (LogLinearInterpolationImpl.new W xs ys).update log with
  | (.error e, _) => .error e
  | (.ok (), impl) => .ok impl

/-- Constructor of the public handle `LogCubicInterpolation` (lines 152-169). -/
def LogCubicInterpolation (W : CubicSplineAlgorithm R) (log : R → R) (xs ys : List R)
    (leftCondition : BoundaryCondition) (leftConditionValue : R)
    (rightCondition : BoundaryCondition) (rightConditionValue : R)
    (monotonicityConstraint : Bool) : Except (Error R) (LogCubicInterpolationImpl R W) :=
  match (LogCubicInterpolationImpl.new W xs ys leftCondition leftConditionValue
      rightCondition rightConditionValue monotonicityConstraint).update log with
  | (.error e, _) => .error e
  | (.ok (), impl) => .ok impl

/-- Factory `LogLinear` (lines 173-181): it has no data members. -/
structure LogLinear where
  deriving DecidableEq

/-- Member `LogLinear::interpolate` (lines 176-179). -/
def LogLinear.interpolate (_ : LogLinear) (W : LinearAlgorithm R) (log : R → R)
    (xs ys : List R) : Except (Error R) (LogLinearInterpolationImpl R W) :=
  LogLinearInterpolation W log xs ys

/-- The constant `LogLinear::global` (line 180). -/
def LogLinear.global : Nat := 0

/-- Factory `LogCubic` (lines 184-209): its five data members. -/
structure LogCubic (R : Type) where
  lefType : BoundaryCondition
  rightType : BoundaryCondition
  leftValue : R
  rightValue : R
  monotone : Bool

/-- Constructor of `LogCubic` with all five arguments given (lines 186-195). -/
def LogCubic.new (leftCondition : BoundaryCondition) (leftConditionValue : R)
    (rightCondition : BoundaryCondition) (rightConditionValue : R)
    (monotonicityConstraint : Bool) : LogCubic R :=
  { lefType := leftCondition, rightType := rightCondition,
    leftValue := leftConditionValue, rightValue := rightConditionValue,
    monotone := monotonicityConstraint }

/-- Constructor of `LogCubic` with every argument defaulted (lines 186-192). -/
def LogCubic.default : LogCubic R :=
  LogCubic.new BoundaryCondition.NotAKnot 0 BoundaryCondition.SecondDerivative 0 true

/-- Member `LogCubic::interpolate` (lines 197-203). -/
def LogCubic.interpolate (f : LogCubic R) (W : CubicSplineAlgorithm R) (log : R → R)
    (xs ys : List R) : Except (Error R) (LogCubicInterpolationImpl R W) :=
  LogCubicInterpolation W log xs ys f.lefType f.leftValue f.rightType f.rightValue
    f.monotone

/-- The constant `LogCubic::global` (line 204). -/
def LogCubic.global : Nat := 1

/-! ### The wrapped linear algorithm, modelled from the spec -/

/-- Modelled from the spec: the two ways the spec names for the wrapped linear
algorithm to continue its curve outside `[x[0], x[n-1]]` when extrapolation is
permitted ("how the underlying linear algorithm extrapolates — constant/linear — is
inherited unchanged"). -/
inductive Extrapolation where
  | constant
  | linear
  deriving DecidableEq

/-- Modelled from the spec: the linear-interpolation algorithm of the missing
`linearinterpolation.hpp`, which "evaluates a piecewise-linear curve through
`(x_i, y_i)`".  At `t` the curve is the chord of the first segment whose right knot is
not left of `t`; the first and the last chord are extended beyond the end knots. -/
def piecewiseLinear : List R → List R → R → R
  | x0 :: x1 :: xs, y0 :: y1 :: ys, t =>
    if t ≤ x1 ∨ xs = [] then y0 + (t - x0) * ((y1 - y0) / (x1 - x0))
    else piecewiseLinear (x1 :: xs) (y1 :: ys) t
  | _, y0 :: _, _ => y0
  | _, _, _ => 0

/-- Modelled from the spec: evaluation of the linear algorithm with extrapolation
permitted.  `linear` extends the end chords; `constant` holds the end ordinates, which
is the curve evaluated at `t` clamped into `[x[0], x[n-1]]`. -/
def linearValue (mode : Extrapolation) (x y : List R) (t : R) : R :=
  match mode with
  | .linear => piecewiseLinear x y t
  | .constant => piecewiseLinear x y (max (x.headD 0) (min t (x.getLastD 0)))

/-- Modelled from the spec: the linear-interpolation algorithm as a `LinearAlgorithm`:
`construct` fails when `x_end - x_begin < 2`, the instance holds nothing besides its
iterators, `update()` has nothing to recompute, and evaluation reads the knots through
the iterators and is refused outside the knot range unless extrapolation is
permitted. -/
def piecewiseLinearAlgorithm (R : Type) [LinearOrderedField R] (mode : Extrapolation) :
    LinearAlgorithm R where
  Interpolation := Unit
  empty := ()
  construct x _ :=
    if x.length < 2 then .error "not enough points to interpolate" else .ok ()
  update a _ _ := (.ok (), a)
  evaluate _ x y t allowExtrapolation :=
    if allowExtrapolation = true ∨ (x.headD 0 ≤ t ∧ t ≤ x.getLastD 0) then
      .ok (linearValue mode x y t)
    else .error "interpolation range exceeded"

/-- A stand-in for the cubic-spline algorithm of the missing `cubicspline.hpp`, used to
instantiate statements about the log-cubic variant at concrete data: it keeps its
construction arguments and evaluates the chords between neighbouring knots. -/
def chordSpline (R : Type) [LinearOrderedField R] : CubicSplineAlgorithm R where
  Interpolation := (BoundaryCondition × R) × (BoundaryCondition × R) × Bool
  empty := ((.NotAKnot, 0), (.NotAKnot, 0), false)
  construct x _ l lv r rv m :=
    if x.length < 2 then .error "not enough points to interpolate"
    else .ok ((l, lv), (r, rv), m)
  update a _ _ := (.ok (), a)
  evaluate _ x y t allowExtrapolation :=
    if allowExtrapolation = true ∨ (x.headD 0 ≤ t ∧ t ≤ x.getLastD 0) then
      .ok (piecewiseLinear x y t)
    else .error "interpolation range exceeded"

/-! ### Predicates used in the statements -/

/-- The class invariant of both implementations: `logY_` is sized once, by the
constructor, to `xEnd - xBegin`, and no member resizes it. -/
def detail.LogLinearInterpolationImpl.WellFormed {W : LinearAlgorithm R}
    (s : LogLinearInterpolationImpl R W) : Prop :=
  s.logY.length = s.x.length

/-- The class invariant of the log-cubic implementation, as for the log-linear one. -/
def detail.LogCubicInterpolationImpl.WellFormed {W : CubicSplineAlgorithm R}
    (s : LogCubicInterpolationImpl R W) : Prop :=
  s.logY.length = s.x.length

/-- The ordinate `y[i]` as `update()` reads it. -/
def ordinate (y : List R) (i : Nat) : R := y.getD i 0

/-- Index `i` is the first of the `n` ordinates that is not strictly positive. -/
def FirstNonPositive (y : List R) (n i : Nat) : Prop :=
  i < n ∧ ¬ 0 < ordinate y i ∧ ∀ j, j < i → 0 < ordinate y j

/-- All of the first `n` ordinates are strictly positive. -/
def AllPositive (y : List R) (n : Nat) : Prop :=
  ∀ j, j < n → 0 < ordinate y j

/-- The buffer `logY` holds the logarithms of the first `n` ordinates. -/
def logBuffer (log : R → R) (y : List R) (n : Nat) : List R :=
  (List.range n).map (fun j => log (ordinate y j))

/-- The positivity contract of `update()` for an outcome `outcome` over `n` points with
ordinates `y`: the invalid-value error is raised exactly when some ordinate is not
strictly positive, and it then carries the first such index and the value there. -/
def InvalidValueContract {α : Type} (outcome : Except (Error R) α) (y : List R) (n : Nat) :
    Prop :=
  ((∃ v i, outcome = .error (.invalidValue v i)) ↔ ∃ i, i < n ∧ ¬ 0 < ordinate y i) ∧
  (∀ v i, outcome = .error (.invalidValue v i) ↔ (FirstNonPositive y n i ∧ v = ordinate y i))

/-- The wrapped linear algorithm reproduces its own knots on `(x, y)`: it can be built
over them, and evaluating it at each `x[i]` returns `y[i]`. -/
def LinearAlgorithm.ReproducesKnots (W : LinearAlgorithm R) (x y : List R) : Prop :=
  ∃ a, W.fresh x y = .ok a ∧
    ∀ i, i < x.length → W.evaluate a x y (x.getD i 0) true = .ok (y.getD i 0)

/-- The wrapped cubic-spline algorithm, built with the given boundary descriptors and
monotonicity flag, reproduces its own knots on `(x, y)`. -/
def CubicSplineAlgorithm.ReproducesKnots (W : CubicSplineAlgorithm R) (x y : List R)
    (leftType : BoundaryCondition) (leftValue : R)
    (rightType : BoundaryCondition) (rightValue : R) (constrained : Bool) : Prop :=
  ∃ a, W.fresh x y leftType leftValue rightType rightValue constrained = .ok a ∧
    ∀ i, i < x.length → W.evaluate a x y (x.getD i 0) true = .ok (y.getD i 0)

/-- The point `t` does not lie strictly between the two neighbours of knot `k`:
`t ≤ x[k-1]` or `t ≥ x[k+1]`, each alternative being available only when that
neighbour exists. -/
def OutsideNeighbours (xs : List R) (k : Nat) (t : R) : Prop :=
  (∃ j a, j + 1 = k ∧ xs[j]? = some a ∧ t ≤ a) ∨ (∃ b, xs[k + 1]? = some b ∧ b ≤ t)

/-! ### The loop of `update()` -/

theorem logLoop_ok (log : R → R) (y : List R) :
    ∀ (rest pre : List R),
      (∀ j, pre.length ≤ j → j < pre.length + rest.length → 0 < ordinate y j) →
      logLoop log y rest.length pre.length (pre ++ rest)
        = (.ok (), pre ++ (List.range' pre.length rest.length).map
            (fun j => log (ordinate y j))) := by
  unfold ordinate
  intro rest
  induction rest with
  | nil => intro pre _; simp [logLoop]
  | cons a rest ih =>
    intro pre h
    have h0 : 0 < y.getD pre.length 0 := h pre.length (le_refl _) (by simp)
    have hset : (pre ++ a :: rest).set pre.length (log (y.getD pre.length 0))
        = (pre ++ [log (y.getD pre.length 0)]) ++ rest := by
      simp [List.set_append]
    have ih1 := ih (pre ++ [log (y.getD pre.length 0)]) (by
      intro j hj1 hj2
      simp at hj1 hj2
      exact h j (by omega) (by simp; omega))
    simp only [List.length_append, List.length_singleton, List.length_nil,
      List.length_cons, Nat.zero_add] at ih1
    simp only [List.length_cons, logLoop, if_pos h0]
    rw [hset, ih1]
    simp [List.range'_succ]

theorem logLoop_stop (log : R → R) (y : List R) :
    ∀ (rest pre : List R) (m : Nat),
      pre.length ≤ m → m < pre.length + rest.length →
      (∀ j, pre.length ≤ j → j < m → 0 < ordinate y j) → ¬ 0 < ordinate y m →
      logLoop log y rest.length pre.length (pre ++ rest)
        = (.error (.invalidValue (ordinate y m) m),
            pre ++ (List.range' pre.length (m - pre.length)).map
              (fun j => log (ordinate y j)) ++ rest.drop (m - pre.length)) := by
  unfold ordinate
  intro rest
  induction rest with
  | nil => intro pre m h1 h2; simp at h2; omega
  | cons a rest ih =>
    intro pre m h1 h2 hpos hneg
    rcases Nat.eq_or_lt_of_le h1 with heq | hlt
    · subst heq
      simp only [List.length_cons, logLoop, if_neg hneg]
      simp
    · have h0 : 0 < y.getD pre.length 0 := hpos pre.length (le_refl _) hlt
      have hset : (pre ++ a :: rest).set pre.length (log (y.getD pre.length 0))
          = (pre ++ [log (y.getD pre.length 0)]) ++ rest := by
        simp [List.set_append]
      have ih1 := ih (pre ++ [log (y.getD pre.length 0)]) m
        (by simp; omega)
        (by simp at h2 ⊢; omega)
        (by intro j hj1 hj2
            simp at hj1
            exact hpos j (by omega) hj2)
        hneg
      simp only [List.length_append, List.length_singleton, List.length_nil,
        List.length_cons, Nat.zero_add] at ih1
      obtain ⟨d, hd⟩ : ∃ d, m - pre.length = d + 1 := ⟨m - pre.length - 1, by omega⟩
      have hd2 : m - (pre.length + 1) = d := by omega
      rw [hd2] at ih1
      simp only [List.length_cons, logLoop, if_pos h0]
      rw [hset, ih1, hd]
      simp [List.range'_succ]

theorem logLoop_allPositive (log : R → R) (y buf : List R)
    (h : AllPositive y buf.length) :
    logLoop log y buf.length 0 buf = (.ok (), logBuffer log y buf.length) := by
  have key := logLoop_ok log y buf [] (by
    intro j _ hj
    simp at hj
    exact h j hj)
  simpa [logBuffer, List.range_eq_range'] using key

theorem logLoop_firstNonPositive (log : R → R) (y buf : List R) (m : Nat)
    (h : FirstNonPositive y buf.length m) :
    logLoop log y buf.length 0 buf
      = (.error (.invalidValue (ordinate y m) m), logBuffer log y m ++ buf.drop m) := by
  obtain ⟨h1, h2, h3⟩ := h
  have key := logLoop_stop log y buf [] m (Nat.zero_le _) (by simpa using h1)
    (fun j _ hj => h3 j hj) h2
  simpa [logBuffer, List.range_eq_range'] using key

theorem allPositive_or_firstNonPositive (y : List R) (n : Nat) :
    AllPositive y n ∨ ∃ m, FirstNonPositive y n m := by
  by_cases h : ∃ m, m < n ∧ ¬ 0 < ordinate y m
  · right
    refine ⟨Nat.find h, (Nat.find_spec h).1, (Nat.find_spec h).2, fun j hj => ?_⟩
    by_contra hc
    exact Nat.find_min h hj ⟨lt_trans hj (Nat.find_spec h).1, hc⟩
  · left
    intro j hj
    by_contra hc
    exact h ⟨j, hj, hc⟩

theorem firstNonPositive_unique {y : List R} {n i j : Nat}
    (hi : FirstNonPositive y n i) (hj : FirstNonPositive y n j) : i = j := by
  rcases Nat.lt_trichotomy i j with h | h | h
  · exact absurd (hj.2.2 i h) hi.2.1
  · exact h
  · exact absurd (hi.2.2 j h) hj.2.1

theorem not_allPositive_of_firstNonPositive {y : List R} {n i : Nat}
    (hi : FirstNonPositive y n i) : ¬ AllPositive y n :=
  fun h => hi.2.1 (h i hi.1)

theorem logBuffer_length (log : R → R) (y : List R) (n : Nat) :
    (logBuffer log y n).length = n := by
  simp [logBuffer]

theorem logBuffer_eq_map (log : R → R) (y : List R) :
    logBuffer log y y.length = y.map log := by
  apply List.ext_getElem
  · simp [logBuffer]
  · intro i h1 h2
    have hi : i < y.length := by simpa using h2
    simp [logBuffer, ordinate, List.getD_eq_getElem?_getD, List.getElem?_eq_getElem hi]

/-! ### `update()` and the handle constructors, case by case -/

namespace detail.LogLinearInterpolationImpl

variable {W : LinearAlgorithm R}

theorem linear_update_of_firstNonPositive (log : R → R) (s : LogLinearInterpolationImpl R W)
    (m : Nat) (h : FirstNonPositive s.yBegin s.logY.length m) :
    s.update log = (.error (.invalidValue (ordinate s.yBegin m) m),
      { s with logY := logBuffer log s.yBegin m ++ s.logY.drop m }) := by
  simp only [update, logLoop_firstNonPositive log s.yBegin s.logY m h]

theorem linear_update_of_allPositive (log : R → R) (s : LogLinearInterpolationImpl R W)
    (h : AllPositive s.yBegin s.logY.length) :
    s.update log =
      match W.construct s.x (logBuffer log s.yBegin s.logY.length) with
      | .error e =>
        (.error (.wrapped e), { s with logY := logBuffer log s.yBegin s.logY.length })
      | .ok a =>
        match W.update a s.x (logBuffer log s.yBegin s.logY.length) with
        | (.error e, b) =>
          (.error (.wrapped e),
            { s with logY := logBuffer log s.yBegin s.logY.length, interpolation := b })
        | (.ok (), b) =>
          (.ok (),
            { s with logY := logBuffer log s.yBegin s.logY.length, interpolation := b }) := by
  simp only [update, logLoop_allPositive log s.yBegin s.logY h]

theorem linear_update_ne_invalidValue_of_allPositive (log : R → R)
    (s : LogLinearInterpolationImpl R W) (h : AllPositive s.yBegin s.logY.length)
    (v : R) (i : Nat) : (s.update log).1 ≠ .error (.invalidValue v i) := by
  rw [linear_update_of_allPositive log s h]
  cases W.construct s.x (logBuffer log s.yBegin s.logY.length) with
  | error e => simp
  | ok a =>
    rcases hu : W.update a s.x (logBuffer log s.yBegin s.logY.length) with ⟨r, b⟩
    cases r with
    | error e => simp [hu]
    | ok u => simp [hu]

theorem linear_new_wellFormed (W : LinearAlgorithm R) (xs ys : List R) :
    (new W xs ys).WellFormed := by
  simp [new, WellFormed]

theorem linear_update_wellFormed (log : R → R) (s : LogLinearInterpolationImpl R W)
    (h : s.WellFormed) : (s.update log).2.WellFormed := by
  unfold WellFormed at h ⊢
  rcases allPositive_or_firstNonPositive s.yBegin s.logY.length with hp | ⟨m, hm⟩
  · rw [linear_update_of_allPositive log s hp]
    cases W.construct s.x (logBuffer log s.yBegin s.logY.length) with
    | error e => simpa [logBuffer_length] using h
    | ok a =>
      rcases hu : W.update a s.x (logBuffer log s.yBegin s.logY.length) with ⟨r, b⟩
      cases r with
      | error e => simpa [hu, logBuffer_length] using h
      | ok u => simpa [hu, logBuffer_length] using h
  · rw [linear_update_of_firstNonPositive log s m hm]
    have := hm.1
    simp only [List.length_append, logBuffer_length, List.length_drop]
    omega

theorem linear_update_eq_ok_iff (log : R → R) (s s' : LogLinearInterpolationImpl R W) :
    s.update log = (.ok (), s') ↔
      AllPositive s.yBegin s.logY.length ∧
      ∃ a, W.fresh s.x (logBuffer log s.yBegin s.logY.length) = .ok a ∧
        s' = { s with logY := logBuffer log s.yBegin s.logY.length, interpolation := a } := by
  rcases allPositive_or_firstNonPositive s.yBegin s.logY.length with hp | ⟨m, hm⟩
  · rw [linear_update_of_allPositive log s hp, LinearAlgorithm.fresh]
    cases W.construct s.x (logBuffer log s.yBegin s.logY.length) with
    | error e => simp
    | ok a =>
      rcases hu : W.update a s.x (logBuffer log s.yBegin s.logY.length) with ⟨r, b⟩
      cases r with
      | error e => simp [hu]
      | ok u =>
        simp only [hu, Prod.mk.injEq, true_and, Except.ok.injEq, hp]
        constructor
        · intro h; exact ⟨b, rfl, h.symm⟩
        · rintro ⟨c, hc, rfl⟩; rw [hc]
  · rw [linear_update_of_firstNonPositive log s m hm]
    have := not_allPositive_of_firstNonPositive hm
    simp [this]

end detail.LogLinearInterpolationImpl

namespace detail.LogCubicInterpolationImpl

variable {W : CubicSplineAlgorithm R}

theorem cubic_update_of_firstNonPositive (log : R → R) (s : LogCubicInterpolationImpl R W)
    (m : Nat) (h : FirstNonPositive s.yBegin s.logY.length m) :
    s.update log = (.error (.invalidValue (ordinate s.yBegin m) m),
      { s with logY := logBuffer log s.yBegin m ++ s.logY.drop m }) := by
  simp only [update, logLoop_firstNonPositive log s.yBegin s.logY m h]

theorem cubic_update_of_allPositive (log : R → R) (s : LogCubicInterpolationImpl R W)
    (h : AllPositive s.yBegin s.logY.length) :
    s.update log =
      match W.construct s.x (logBuffer log s.yBegin s.logY.length) s.leftType s.leftValue
        s.rightType s.rightValue s.constrained with
      | .error e =>
        (.error (.wrapped e), { s with logY := logBuffer log s.yBegin s.logY.length })
      | .ok a =>
        match W.update a s.x (logBuffer log s.yBegin s.logY.length) with
        | (.error e, b) =>
          (.error (.wrapped e),
            { s with logY := logBuffer log s.yBegin s.logY.length, interpolation := b })
        | (.ok (), b) =>
          (.ok (),
            { s with logY := logBuffer log s.yBegin s.logY.length, interpolation := b }) := by
  simp only [update, logLoop_allPositive log s.yBegin s.logY h]

theorem cubic_update_ne_invalidValue_of_allPositive (log : R → R)
    (s : LogCubicInterpolationImpl R W) (h : AllPositive s.yBegin s.logY.length)
    (v : R) (i : Nat) : (s.update log).1 ≠ .error (.invalidValue v i) := by
  rw [cubic_update_of_allPositive log s h]
  cases W.construct s.x (logBuffer log s.yBegin s.logY.length) s.leftType s.leftValue
        s.rightType s.rightValue s.constrained with
  | error e => simp
  | ok a =>
    rcases hu : W.update a s.x (logBuffer log s.yBegin s.logY.length) with ⟨r, b⟩
    cases r with
    | error e => simp [hu]
    | ok u => simp [hu]

theorem cubic_new_wellFormed (W : CubicSplineAlgorithm R) (xs ys : List R)
    (l : BoundaryCondition) (lv : R) (r : BoundaryCondition) (rv : R) (m : Bool) :
    (new W xs ys l lv r rv m).WellFormed := by
  simp [new, WellFormed]

theorem cubic_update_wellFormed (log : R → R) (s : LogCubicInterpolationImpl R W)
    (h : s.WellFormed) : (s.update log).2.WellFormed := by
  unfold WellFormed at h ⊢
  rcases allPositive_or_firstNonPositive s.yBegin s.logY.length with hp | ⟨m, hm⟩
  · rw [cubic_update_of_allPositive log s hp]
    cases W.construct s.x (logBuffer log s.yBegin s.logY.length) s.leftType s.leftValue
        s.rightType s.rightValue s.constrained with
    | error e => simpa [logBuffer_length] using h
    | ok a =>
      rcases hu : W.update a s.x (logBuffer log s.yBegin s.logY.length) with ⟨r, b⟩
      cases r with
      | error e => simpa [hu, logBuffer_length] using h
      | ok u => simpa [hu, logBuffer_length] using h
  · rw [cubic_update_of_firstNonPositive log s m hm]
    have := hm.1
    simp only [List.length_append, logBuffer_length, List.length_drop]
    omega

theorem cubic_update_eq_ok_iff (log : R → R) (s s' : LogCubicInterpolationImpl R W) :
    s.update log = (.ok (), s') ↔
      AllPositive s.yBegin s.logY.length ∧
      ∃ a, W.fresh s.x (logBuffer log s.yBegin s.logY.length) s.leftType s.leftValue
          s.rightType s.rightValue s.constrained = .ok a ∧
        s' = { s with logY := logBuffer log s.yBegin s.logY.length, interpolation := a } := by
  rcases allPositive_or_firstNonPositive s.yBegin s.logY.length with hp | ⟨m, hm⟩
  · rw [cubic_update_of_allPositive log s hp, CubicSplineAlgorithm.fresh]
    cases W.construct s.x (logBuffer log s.yBegin s.logY.length) s.leftType s.leftValue
        s.rightType s.rightValue s.constrained with
    | error e => simp
    | ok a =>
      rcases hu : W.update a s.x (logBuffer log s.yBegin s.logY.length) with ⟨r, b⟩
      cases r with
      | error e => simp [hu]
      | ok u =>
        simp only [hu, Prod.mk.injEq, true_and, Except.ok.injEq, hp]
        constructor
        · intro h; exact ⟨b, rfl, h.symm⟩
        · rintro ⟨c, hc, rfl⟩; rw [hc]
  · rw [cubic_update_of_firstNonPositive log s m hm]
    have := not_allPositive_of_firstNonPositive hm
    simp [this]

end detail.LogCubicInterpolationImpl

/-! ### The public handles -/

theorem LogLinearInterpolation_eq_ok_iff (W : LinearAlgorithm R) (log : R → R)
    (xs ys : List R) (h : LogLinearInterpolationImpl R W) :
    LogLinearInterpolation W log xs ys = .ok h ↔
      AllPositive ys xs.length ∧
      ∃ a, W.fresh xs (logBuffer log ys xs.length) = .ok a ∧
        h = { x := xs, yBegin := ys, logY := logBuffer log ys xs.length,
              interpolation := a } := by
  have key := LogLinearInterpolationImpl.linear_update_eq_ok_iff log
    (LogLinearInterpolationImpl.new W xs ys) h
  simp only [LogLinearInterpolationImpl.new, List.length_replicate] at key
  rw [← key]
  unfold LogLinearInterpolation
  rcases hu : (LogLinearInterpolationImpl.new W xs ys).update log with ⟨r, s'⟩
  simp only [LogLinearInterpolationImpl.new] at hu
  cases r with
  | error e => simp [hu]
  | ok u => simp [hu]

theorem LogCubicInterpolation_eq_ok_iff (W : CubicSplineAlgorithm R) (log : R → R)
    (xs ys : List R) (l : BoundaryCondition) (lv : R) (r : BoundaryCondition) (rv : R)
    (m : Bool) (h : LogCubicInterpolationImpl R W) :
    LogCubicInterpolation W log xs ys l lv r rv m = .ok h ↔
      AllPositive ys xs.length ∧
      ∃ a, W.fresh xs (logBuffer log ys xs.length) l lv r rv m = .ok a ∧
        h = { x := xs, yBegin := ys, logY := logBuffer log ys xs.length,
              interpolation := a, constrained := m, leftType := l, rightType := r,
              leftValue := lv, rightValue := rv } := by
  have key := LogCubicInterpolationImpl.cubic_update_eq_ok_iff log
    (LogCubicInterpolationImpl.new W xs ys l lv r rv m) h
  simp only [LogCubicInterpolationImpl.new, List.length_replicate] at key
  rw [← key]
  unfold LogCubicInterpolation
  rcases hu : (LogCubicInterpolationImpl.new W xs ys l lv r rv m).update log with ⟨r, s'⟩
  simp only [LogCubicInterpolationImpl.new] at hu
  cases r with
  | error e => simp [hu]
  | ok u => simp [hu]

theorem invalidValueContract_intro {α : Type} (outcome : Except (Error R) α) (y : List R)
    (n : Nat)
    (hpos : AllPositive y n → ∀ v i, outcome ≠ .error (.invalidValue v i))
    (hneg : ∀ m, FirstNonPositive y n m →
      outcome = .error (.invalidValue (ordinate y m) m)) :
    InvalidValueContract outcome y n := by
  have second : ∀ v i, outcome = .error (.invalidValue v i) ↔
      (FirstNonPositive y n i ∧ v = ordinate y i) := by
    intro v i
    constructor
    · intro h
      rcases allPositive_or_firstNonPositive y n with hp | ⟨m, hm⟩
      · exact absurd h (hpos hp v i)
      · have h2 := hneg m hm
        rw [h] at h2
        simp only [Except.error.injEq, Error.invalidValue.injEq] at h2
        obtain ⟨hv, hi⟩ := h2
        subst hi
        exact ⟨hm, hv⟩
    · rintro ⟨hi, rfl⟩
      exact hneg i hi
  refine ⟨?_, second⟩
  constructor
  · rintro ⟨v, i, h⟩
    obtain ⟨hi, _⟩ := (second v i).mp h
    exact ⟨i, hi.1, hi.2.1⟩
  · rintro ⟨i, hi, hni⟩
    rcases allPositive_or_firstNonPositive y n with hp | ⟨m, hm⟩
    · exact absurd (hp i hi) hni
    · exact ⟨ordinate y m, m, hneg m hm⟩

theorem LogLinearInterpolation_of_firstNonPositive (W : LinearAlgorithm R) (log : R → R)
    (xs ys : List R) (m : Nat) (h : FirstNonPositive ys xs.length m) :
    LogLinearInterpolation W log xs ys = .error (.invalidValue (ordinate ys m) m) := by
  unfold LogLinearInterpolation
  rw [LogLinearInterpolationImpl.linear_update_of_firstNonPositive log _ m
    (by simpa [LogLinearInterpolationImpl.new] using h)]
  simp [LogLinearInterpolationImpl.new]

theorem LogLinearInterpolation_ne_invalidValue (W : LinearAlgorithm R) (log : R → R)
    (xs ys : List R) (h : AllPositive ys xs.length) (v : R) (i : Nat) :
    LogLinearInterpolation W log xs ys ≠ .error (.invalidValue v i) := by
  have key := LogLinearInterpolationImpl.linear_update_ne_invalidValue_of_allPositive log
    (LogLinearInterpolationImpl.new W xs ys)
    (by simpa [LogLinearInterpolationImpl.new] using h) v i
  unfold LogLinearInterpolation
  rcases hu : (LogLinearInterpolationImpl.new W xs ys).update log with ⟨r, s'⟩
  rw [hu] at key
  cases r with
  | error e => simpa using key
  | ok u => simp

theorem LogCubicInterpolation_of_firstNonPositive (W : CubicSplineAlgorithm R)
    (log : R → R) (xs ys : List R) (l : BoundaryCondition) (lv : R)
    (r : BoundaryCondition) (rv : R) (c : Bool) (m : Nat)
    (h : FirstNonPositive ys xs.length m) :
    LogCubicInterpolation W log xs ys l lv r rv c
      = .error (.invalidValue (ordinate ys m) m) := by
  unfold LogCubicInterpolation
  rw [LogCubicInterpolationImpl.cubic_update_of_firstNonPositive log _ m
    (by simpa [LogCubicInterpolationImpl.new] using h)]
  simp [LogCubicInterpolationImpl.new]

theorem LogCubicInterpolation_ne_invalidValue (W : CubicSplineAlgorithm R) (log : R → R)
    (xs ys : List R) (l : BoundaryCondition) (lv : R) (r : BoundaryCondition) (rv : R)
    (c : Bool) (h : AllPositive ys xs.length) (v : R) (i : Nat) :
    LogCubicInterpolation W log xs ys l lv r rv c ≠ .error (.invalidValue v i) := by
  have key := LogCubicInterpolationImpl.cubic_update_ne_invalidValue_of_allPositive log
    (LogCubicInterpolationImpl.new W xs ys l lv r rv c)
    (by simpa [LogCubicInterpolationImpl.new] using h) v i
  unfold LogCubicInterpolation
  rcases hu : (LogCubicInterpolationImpl.new W xs ys l lv r rv c).update log with ⟨o, s'⟩
  rw [hu] at key
  cases o with
  | error e => simpa using key
  | ok u => simp

/-! ### Positivity enforcement -/

/-- C1. For the log-linear and the log-cubic variant alike, and with no assumption on
the abscissas: `update()` on a state over `n` points, and construction of the public
handle over `n` points, fail with the invalid-value error if and only if some `y[i]`
with `i < n` is not strictly positive; the error raised is
`invalidValue v i` exactly when `i` is the smallest such index and `v = y[i]`, so no
earlier index with a positive value is ever reported. -/
theorem update_invalid_value_contract (log : R → R) :
    (∀ (W : LinearAlgorithm R) (s : LogLinearInterpolationImpl R W), s.WellFormed →
        InvalidValueContract (s.update log).1 s.yBegin s.x.length) ∧
    (∀ (W : CubicSplineAlgorithm R) (s : LogCubicInterpolationImpl R W), s.WellFormed →
        InvalidValueContract (s.update log).1 s.yBegin s.x.length) ∧
    (∀ (W : LinearAlgorithm R) (xs ys : List R),
        InvalidValueContract (LogLinearInterpolation W log xs ys) ys xs.length) ∧
    (∀ (W : CubicSplineAlgorithm R) (xs ys : List R) (l : BoundaryCondition) (lv : R)
        (r : BoundaryCondition) (rv : R) (c : Bool),
        InvalidValueContract (LogCubicInterpolation W log xs ys l lv r rv c) ys
          xs.length) := by
  refine ⟨?_, ?_, ?_, ?_⟩
  · intro W s hs
    unfold LogLinearInterpolationImpl.WellFormed at hs
    rw [← hs]
    apply invalidValueContract_intro
    · intro hp v i
      exact LogLinearInterpolationImpl.linear_update_ne_invalidValue_of_allPositive log s hp v i
    · intro m hm
      rw [LogLinearInterpolationImpl.linear_update_of_firstNonPositive log s m hm]
  · intro W s hs
    unfold LogCubicInterpolationImpl.WellFormed at hs
    rw [← hs]
    apply invalidValueContract_intro
    · intro hp v i
      exact LogCubicInterpolationImpl.cubic_update_ne_invalidValue_of_allPositive log s hp v i
    · intro m hm
      rw [LogCubicInterpolationImpl.cubic_update_of_firstNonPositive log s m hm]
  · intro W xs ys
    apply invalidValueContract_intro
    · intro hp v i
      exact LogLinearInterpolation_ne_invalidValue W log xs ys hp v i
    · intro m hm
      exact LogLinearInterpolation_of_firstNonPositive W log xs ys m hm
  · intro W xs ys l lv r rv c
    apply invalidValueContract_intro
    · intro hp v i
      exact LogCubicInterpolation_ne_invalidValue W log xs ys l lv r rv c hp v i
    · intro m hm
      exact LogCubicInterpolation_of_firstNonPositive W log xs ys l lv r rv c m hm

/-- Witness for C1: the log-linear implementation over `x = [1, 2, 3]`,
`y = [1, -1, 0]`, freshly constructed, satisfies the class invariant, and its
`update()` obeys the positivity contract. -/
theorem update_invalid_value_contract_witness :
    (LogLinearInterpolationImpl.new (piecewiseLinearAlgorithm ℝ Extrapolation.linear)
        [1, 2, 3] [1, -1, 0]).WellFormed ∧
    InvalidValueContract
      ((LogLinearInterpolationImpl.new (piecewiseLinearAlgorithm ℝ Extrapolation.linear)
        [1, 2, 3] [1, -1, 0]).update Real.log).1 [1, -1, 0] 3 :=
  ⟨by simp [LogLinearInterpolationImpl.WellFormed, LogLinearInterpolationImpl.new],
   (update_invalid_value_contract Real.log).1 (piecewiseLinearAlgorithm ℝ Extrapolation.linear)
    (LogLinearInterpolationImpl.new (piecewiseLinearAlgorithm ℝ Extrapolation.linear)
      [1, 2, 3] [1, -1, 0])
    (by simp [LogLinearInterpolationImpl.WellFormed, LogLinearInterpolationImpl.new])⟩

/-! ### Unsupported operations -/

/-- C2. For the log-linear and the log-cubic variant, in every state of the
implementation (updated or not) and for every argument `t` (a knot or not), each of
`derivative(t)`, `secondDerivative(t)` and `primitive(t)` fails with the
not-implemented error, and so never returns a number. -/
theorem unsupported_operations_fail {S : Type} :
    (∀ (W : LinearAlgorithm S) (s : LogLinearInterpolationImpl S W) (t : S),
        s.derivative t = .error (.notImplemented "LogLinear derivative") ∧
        s.secondDerivative t = .error (.notImplemented "LogLinear secondDerivative") ∧
        s.primitive t = .error (.notImplemented "LogLinear primitive") ∧
        ∀ v : S, s.derivative t ≠ .ok v ∧ s.secondDerivative t ≠ .ok v ∧
          s.primitive t ≠ .ok v) ∧
    (∀ (W : CubicSplineAlgorithm S) (s : LogCubicInterpolationImpl S W) (t : S),
        s.derivative t = .error (.notImplemented "LogCubic derivative") ∧
        s.secondDerivative t = .error (.notImplemented "LogCubic secondDerivative") ∧
        s.primitive t = .error (.notImplemented "LogCubic primitive") ∧
        ∀ v : S, s.derivative t ≠ .ok v ∧ s.secondDerivative t ≠ .ok v ∧
          s.primitive t ≠ .ok v) := by
  constructor
  · intro W s t
    refine ⟨rfl, rfl, rfl, fun v => ⟨?_, ?_, ?_⟩⟩ <;>
      simp [LogLinearInterpolationImpl.derivative,
        LogLinearInterpolationImpl.secondDerivative, LogLinearInterpolationImpl.primitive]
  · intro W s t
    refine ⟨rfl, rfl, rfl, fun v => ⟨?_, ?_, ?_⟩⟩ <;>
      simp [LogCubicInterpolationImpl.derivative,
        LogCubicInterpolationImpl.secondDerivative, LogCubicInterpolationImpl.primitive]

/-! ### The state a failed `update()` leaves behind -/

theorem logBuffer_append_drop_lt (log : R → R) (y buf : List R) (m j : Nat) (h : j < m) :
    (logBuffer log y m ++ buf.drop m)[j]? = some (log (ordinate y j)) := by
  rw [List.getElem?_append_left (by simpa [logBuffer] using h)]
  simp [logBuffer, List.getElem?_range h]

theorem logBuffer_append_drop_ge (log : R → R) (y buf : List R) (m j : Nat) (h : m ≤ j) :
    (logBuffer log y m ++ buf.drop m)[j]? = buf[j]? := by
  rw [List.getElem?_append_right (by simpa [logBuffer] using h)]
  simp only [logBuffer_length, List.getElem?_drop]
  congr 1
  omega

/-- C10. `update()` is not atomic on failure.  For both variants, if `k` is the
smallest index with `y[k] ≤ 0`, then `update()` fails with the invalid-value error for
`k` whatever the wrapped algorithm would do on these points (no wrapped-algorithm error
is reported instead), and afterwards `logY[j] = log(y[j])` for every `j < k`, `logY[j]`
is what it was before the call for every `j ≥ k`, the stored wrapped-algorithm instance
is the one stored before the call (neither rebuilt nor reset), and nothing else in the
object has changed.  That instance reads its ordinates through its iterator into
`logY`, so `value()` after the failure is what the old instance computes over the partly
overwritten buffer. -/
theorem failed_update_leaves_partial_state (log : R → R) :
    (∀ (W : LinearAlgorithm R) (s : LogLinearInterpolationImpl R W) (k : Nat),
        s.WellFormed → FirstNonPositive s.yBegin s.x.length k →
        (s.update log).1 = .error (.invalidValue (ordinate s.yBegin k) k) ∧
        (∀ e, (s.update log).1 ≠ .error (.wrapped e)) ∧
        (s.update log).2.logY.length = s.x.length ∧
        (∀ j, j < k → (s.update log).2.logY[j]? = some (log (ordinate s.yBegin j))) ∧
        (∀ j, k ≤ j → (s.update log).2.logY[j]? = s.logY[j]?) ∧
        (s.update log).2.interpolation = s.interpolation ∧
        (s.update log).2.x = s.x ∧ (s.update log).2.yBegin = s.yBegin ∧
        (∀ (exp : R → R) (t : R), (s.update log).2.value exp t
          = LogLinearInterpolationImpl.value exp
              { s with logY := (s.update log).2.logY } t)) ∧
    (∀ (W : CubicSplineAlgorithm R) (s : LogCubicInterpolationImpl R W) (k : Nat),
        s.WellFormed → FirstNonPositive s.yBegin s.x.length k →
        (s.update log).1 = .error (.invalidValue (ordinate s.yBegin k) k) ∧
        (∀ e, (s.update log).1 ≠ .error (.wrapped e)) ∧
        (s.update log).2.logY.length = s.x.length ∧
        (∀ j, j < k → (s.update log).2.logY[j]? = some (log (ordinate s.yBegin j))) ∧
        (∀ j, k ≤ j → (s.update log).2.logY[j]? = s.logY[j]?) ∧
        (s.update log).2.interpolation = s.interpolation ∧
        (s.update log).2.x = s.x ∧ (s.update log).2.yBegin = s.yBegin ∧
        (s.update log).2.leftType = s.leftType ∧
        (s.update log).2.leftValue = s.leftValue ∧
        (s.update log).2.rightType = s.rightType ∧
        (s.update log).2.rightValue = s.rightValue ∧
        (s.update log).2.constrained = s.constrained ∧
        (∀ (exp : R → R) (t : R), (s.update log).2.value exp t
          = LogCubicInterpolationImpl.value exp
              { s with logY := (s.update log).2.logY } t)) := by
  constructor
  · intro W s k hs hk
    have hwf := LogLinearInterpolationImpl.linear_update_wellFormed log s hs
    unfold LogLinearInterpolationImpl.WellFormed at hs hwf
    rw [← hs] at hk
    rw [LogLinearInterpolationImpl.linear_update_of_firstNonPositive log s k hk] at hwf ⊢
    refine ⟨rfl, by simp, hwf, ?_, ?_, rfl, rfl, rfl, fun _ _ => rfl⟩
    · intro j hj
      exact logBuffer_append_drop_lt log s.yBegin s.logY k j hj
    · intro j hj
      exact logBuffer_append_drop_ge log s.yBegin s.logY k j hj
  · intro W s k hs hk
    have hwf := LogCubicInterpolationImpl.cubic_update_wellFormed log s hs
    unfold LogCubicInterpolationImpl.WellFormed at hs hwf
    rw [← hs] at hk
    rw [LogCubicInterpolationImpl.cubic_update_of_firstNonPositive log s k hk] at hwf ⊢
    refine ⟨rfl, by simp, hwf, ?_, ?_, rfl, rfl, rfl, rfl, rfl, rfl, rfl, rfl,
      fun _ _ => rfl⟩
    · intro j hj
      exact logBuffer_append_drop_lt log s.yBegin s.logY k j hj
    · intro j hj
      exact logBuffer_append_drop_ge log s.yBegin s.logY k j hj

theorem sample_failed_update :
    LogLinearInterpolationImpl.update Real.log
      ({ x := [1, 2, 3], yBegin := [2, 0, 5], logY := [0, 0, Real.log 3],
         interpolation := () } :
        LogLinearInterpolationImpl ℝ (piecewiseLinearAlgorithm ℝ Extrapolation.linear))
      = (.error (.invalidValue 0 1),
         ({ x := [1, 2, 3], yBegin := [2, 0, 5], logY := [Real.log 2, 0, Real.log 3],
            interpolation := () } :
          LogLinearInterpolationImpl ℝ (piecewiseLinearAlgorithm ℝ Extrapolation.linear))) := by
  simp [LogLinearInterpolationImpl.update, logLoop]

/-- Witness for C10: the log-linear state built over `x = [1, 2, 3]`, `y = [1, 1, 3]`
(buffer `[0, 0, log 3]`), updated after the caller's ordinates became `[2, 0, 5]`: the
update fails at index `1`, slot `2` of the buffer still holds `log 3`, slot `0` now
holds `log 2`, and `value(1)`, which was `1`, is `2` although the wrapped instance was
not rebuilt. -/
theorem failed_update_leaves_partial_state_witness :
    (({ x := [1, 2, 3], yBegin := [2, 0, 5], logY := [0, 0, Real.log 3],
        interpolation := () } :
      LogLinearInterpolationImpl ℝ (piecewiseLinearAlgorithm ℝ Extrapolation.linear)).update
        Real.log).1 = .error (.invalidValue (ordinate [2, 0, 5] 1) 1) ∧
    (({ x := [1, 2, 3], yBegin := [2, 0, 5], logY := [0, 0, Real.log 3],
        interpolation := () } :
      LogLinearInterpolationImpl ℝ (piecewiseLinearAlgorithm ℝ Extrapolation.linear)).update
        Real.log).2.logY = [Real.log 2, 0, Real.log 3] ∧
    LogLinearInterpolationImpl.value Real.exp
      ({ x := [1, 2, 3], yBegin := [2, 0, 5], logY := [0, 0, Real.log 3],
         interpolation := () } :
        LogLinearInterpolationImpl ℝ (piecewiseLinearAlgorithm ℝ Extrapolation.linear)) 1
      = .ok 1 ∧
    LogLinearInterpolationImpl.value Real.exp
      (({ x := [1, 2, 3], yBegin := [2, 0, 5], logY := [0, 0, Real.log 3],
          interpolation := () } :
        LogLinearInterpolationImpl ℝ (piecewiseLinearAlgorithm ℝ Extrapolation.linear)).update
          Real.log).2 1
      = .ok 2 := by
  have h := (failed_update_leaves_partial_state Real.log).1
    (piecewiseLinearAlgorithm ℝ Extrapolation.linear)
    { x := [1, 2, 3], yBegin := [2, 0, 5], logY := [0, 0, Real.log 3],
      interpolation := () } 1
    (by simp [LogLinearInterpolationImpl.WellFormed])
    ⟨by norm_num, by norm_num [ordinate],
      by intro j hj; interval_cases j; norm_num [ordinate]⟩
  refine ⟨h.1, ?_, ?_, ?_⟩
  · rw [sample_failed_update]
  · simp [LogLinearInterpolationImpl.value, piecewiseLinearAlgorithm, linearValue,
      piecewiseLinear]
  · rw [sample_failed_update]
    simp [LogLinearInterpolationImpl.value, piecewiseLinearAlgorithm, linearValue,
      piecewiseLinear, Real.exp_log]

/-! ### What a successful `update()` establishes -/

/-- C4. After a successful `update()` on `n` points the buffer has length `n` with
`logY[i] = log(y[i])` for every `i < n` (and every `y[i]` is strictly positive), the
stored wrapped algorithm is the one freshly built over `(x, logY)` — the linear
algorithm for the log-linear variant, the cubic-spline algorithm built with the stored
left kind, left value, right kind, right value and monotonicity flag, in this order,
for the log-cubic variant — and for every `t`, inside or outside the knot range,
`value(t)` is `exp` of what that algorithm returns at `t` with extrapolation allowed
(and fails exactly when that call fails). -/
theorem successful_update_state (log exp : R → R) :
    (∀ (W : LinearAlgorithm R) (s s' : LogLinearInterpolationImpl R W),
        s.WellFormed → s.update log = (.ok (), s') →
        AllPositive s.yBegin s.x.length ∧
        s'.logY.length = s.x.length ∧
        (∀ i, i < s.x.length → s'.logY[i]? = some (log (ordinate s.yBegin i))) ∧
        s'.x = s.x ∧
        W.fresh s.x s'.logY = .ok s'.interpolation ∧
        ∀ t, (∀ v, W.evaluate s'.interpolation s'.x s'.logY t true = .ok v →
                s'.value exp t = .ok (exp v)) ∧
             (∀ e, W.evaluate s'.interpolation s'.x s'.logY t true = .error e →
                s'.value exp t = .error (.wrapped e))) ∧
    (∀ (W : CubicSplineAlgorithm R) (s s' : LogCubicInterpolationImpl R W),
        s.WellFormed → s.update log = (.ok (), s') →
        AllPositive s.yBegin s.x.length ∧
        s'.logY.length = s.x.length ∧
        (∀ i, i < s.x.length → s'.logY[i]? = some (log (ordinate s.yBegin i))) ∧
        s'.x = s.x ∧
        W.fresh s.x s'.logY s.leftType s.leftValue s.rightType s.rightValue
          s.constrained = .ok s'.interpolation ∧
        ∀ t, (∀ v, W.evaluate s'.interpolation s'.x s'.logY t true = .ok v →
                s'.value exp t = .ok (exp v)) ∧
             (∀ e, W.evaluate s'.interpolation s'.x s'.logY t true = .error e →
                s'.value exp t = .error (.wrapped e))) := by
  constructor
  · intro W s s' hs hu
    unfold LogLinearInterpolationImpl.WellFormed at hs
    obtain ⟨hp, a, ha, rfl⟩ :=
      (LogLinearInterpolationImpl.linear_update_eq_ok_iff log s _).mp hu
    rw [hs] at hp ha
    rw [hs]
    refine ⟨hp, logBuffer_length _ _ _, ?_, rfl, ha, ?_⟩
    · intro i hi
      simp [logBuffer, List.getElem?_range hi]
    · intro t
      constructor
      · intro v hv
        simp only [LogLinearInterpolationImpl.value] at hv ⊢
        rw [hv]
      · intro e he
        simp only [LogLinearInterpolationImpl.value] at he ⊢
        rw [he]
  · intro W s s' hs hu
    unfold LogCubicInterpolationImpl.WellFormed at hs
    obtain ⟨hp, a, ha, rfl⟩ := (LogCubicInterpolationImpl.cubic_update_eq_ok_iff log s _).mp hu
    rw [hs] at hp ha
    rw [hs]
    refine ⟨hp, logBuffer_length _ _ _, ?_, rfl, ha, ?_⟩
    · intro i hi
      simp [logBuffer, List.getElem?_range hi]
    · intro t
      constructor
      · intro v hv
        simp only [LogCubicInterpolationImpl.value] at hv ⊢
        rw [hv]
      · intro e he
        simp only [LogCubicInterpolationImpl.value] at he ⊢
        rw [he]

theorem sample_new_wellFormed :
    (LogLinearInterpolationImpl.new (piecewiseLinearAlgorithm ℝ Extrapolation.linear)
        [1, 2] [1, 2]).WellFormed := by
  simp [LogLinearInterpolationImpl.WellFormed, LogLinearInterpolationImpl.new]

theorem sample_new_update :
    (LogLinearInterpolationImpl.new (piecewiseLinearAlgorithm ℝ Extrapolation.linear)
        [1, 2] [1, 2]).update Real.log
      = (.ok (), ({ x := [1, 2], yBegin := [1, 2], logY := [Real.log 1, Real.log 2],
                    interpolation := () } :
          LogLinearInterpolationImpl ℝ (piecewiseLinearAlgorithm ℝ Extrapolation.linear))) := by
  simp [LogLinearInterpolationImpl.update, LogLinearInterpolationImpl.new, logLoop,
    piecewiseLinearAlgorithm]

theorem sample_handle :
    LogLinearInterpolation (piecewiseLinearAlgorithm ℝ Extrapolation.linear) Real.log
        [1, 2] [1, 2]
      = .ok ({ x := [1, 2], yBegin := [1, 2], logY := [Real.log 1, Real.log 2],
               interpolation := () } :
          LogLinearInterpolationImpl ℝ (piecewiseLinearAlgorithm ℝ Extrapolation.linear)) := by
  simp [LogLinearInterpolation, sample_new_update]

/-- Witness for C4: the log-linear implementation over `x = [1, 2]`, `y = [1, 2]`
updates successfully, and its buffer then has length `2`. -/
theorem successful_update_state_witness :
    ([Real.log 1, Real.log 2] : List ℝ).length = ([1, 2] : List ℝ).length :=
  ((successful_update_state Real.log Real.exp).1 (piecewiseLinearAlgorithm ℝ Extrapolation.linear)
    _ _ sample_new_wellFormed sample_new_update).2.1

/-! ### `update()` rebuilds from scratch -/

/-- C8. For both variants, the state a successful `update()` produces depends only on
the current `(x, y)` and the stored construction parameters, not on the state before the
call: it is the state of a handle freshly constructed over the current `(x, y)` with
these parameters (so `update()` after `y` has changed yields what a fresh handle over
the new `y` yields, at every evaluation point), a second `update()` with unchanged
inputs succeeds and leaves it as it is, and any other state of the object over the same
`(x, y)` and parameters is taken by `update()` to this same state. -/
theorem update_rebuilds_from_scratch (log : R → R) :
    (∀ (W : LinearAlgorithm R) (s s' : LogLinearInterpolationImpl R W),
        s.WellFormed → s.update log = (.ok (), s') →
        LogLinearInterpolation W log s.x s.yBegin = .ok s' ∧
        s'.update log = (.ok (), s') ∧
        ∀ s₂ : LogLinearInterpolationImpl R W, s₂.WellFormed →
          s₂.x = s.x → s₂.yBegin = s.yBegin → s₂.update log = (.ok (), s')) ∧
    (∀ (W : CubicSplineAlgorithm R) (s s' : LogCubicInterpolationImpl R W),
        s.WellFormed → s.update log = (.ok (), s') →
        LogCubicInterpolation W log s.x s.yBegin s.leftType s.leftValue s.rightType
          s.rightValue s.constrained = .ok s' ∧
        s'.update log = (.ok (), s') ∧
        ∀ s₂ : LogCubicInterpolationImpl R W, s₂.WellFormed →
          s₂.x = s.x → s₂.yBegin = s.yBegin →
          s₂.leftType = s.leftType → s₂.leftValue = s.leftValue →
          s₂.rightType = s.rightType → s₂.rightValue = s.rightValue →
          s₂.constrained = s.constrained → s₂.update log = (.ok (), s')) := by
  constructor
  · intro W s s' hs hu
    unfold LogLinearInterpolationImpl.WellFormed at hs
    obtain ⟨hp, a, ha, hs'⟩ :=
      (LogLinearInterpolationImpl.linear_update_eq_ok_iff log s _).mp hu
    rw [hs] at hp ha hs'
    have hrest : ∀ s₂ : LogLinearInterpolationImpl R W, s₂.WellFormed →
        s₂.x = s.x → s₂.yBegin = s.yBegin → s₂.update log = (.ok (), s') := by
      intro s₂ h₂ hx hy
      unfold LogLinearInterpolationImpl.WellFormed at h₂
      rw [LogLinearInterpolationImpl.linear_update_eq_ok_iff]
      rw [h₂, hx, hy]
      exact ⟨hp, a, ha, by rw [hs']⟩
    refine ⟨?_, ?_, hrest⟩
    · rw [LogLinearInterpolation_eq_ok_iff]
      exact ⟨hp, a, ha, hs'⟩
    · exact hrest s' (by rw [hs']; simp [LogLinearInterpolationImpl.WellFormed,
        logBuffer_length]) (by rw [hs']) (by rw [hs'])
  · intro W s s' hs hu
    unfold LogCubicInterpolationImpl.WellFormed at hs
    obtain ⟨hp, a, ha, hs'⟩ := (LogCubicInterpolationImpl.cubic_update_eq_ok_iff log s _).mp hu
    rw [hs] at hp ha hs'
    have hrest : ∀ s₂ : LogCubicInterpolationImpl R W, s₂.WellFormed →
        s₂.x = s.x → s₂.yBegin = s.yBegin →
        s₂.leftType = s.leftType → s₂.leftValue = s.leftValue →
        s₂.rightType = s.rightType → s₂.rightValue = s.rightValue →
        s₂.constrained = s.constrained → s₂.update log = (.ok (), s') := by
      intro s₂ h₂ hx hy h1 h2 h3 h4 h5
      unfold LogCubicInterpolationImpl.WellFormed at h₂
      rw [LogCubicInterpolationImpl.cubic_update_eq_ok_iff]
      rw [h₂, hx, hy, h1, h2, h3, h4, h5]
      exact ⟨hp, a, ha, by rw [hs']⟩
    refine ⟨?_, ?_, hrest⟩
    · rw [LogCubicInterpolation_eq_ok_iff]
      exact ⟨hp, a, ha, hs'⟩
    · exact hrest s' (by rw [hs']; simp [LogCubicInterpolationImpl.WellFormed,
        logBuffer_length]) (by rw [hs']) (by rw [hs']) (by rw [hs']) (by rw [hs'])
        (by rw [hs']) (by rw [hs']) (by rw [hs'])

/-- Witness for C8: over `x = [1, 2]`, `y = [1, 2]`, the state after the first
successful `update()` of the log-linear implementation is the freshly constructed
handle. -/
theorem update_rebuilds_from_scratch_witness :
    LogLinearInterpolation (piecewiseLinearAlgorithm ℝ Extrapolation.linear) Real.log
        [1, 2] [1, 2]
      = .ok ({ x := [1, 2], yBegin := [1, 2], logY := [Real.log 1, Real.log 2],
               interpolation := () } :
          LogLinearInterpolationImpl ℝ (piecewiseLinearAlgorithm ℝ Extrapolation.linear)) :=
  ((update_rebuilds_from_scratch Real.log).1 (piecewiseLinearAlgorithm ℝ Extrapolation.linear)
    _ _ sample_new_wellFormed sample_new_update).1

/-! ### Positivity of the interpolated curve -/

/-- C9. Over the reals, for both variants, for every successfully constructed handle and
every `t`, inside or outside the knot range: whatever number `r` the wrapped algorithm
returns at `t`, `value(t)` returns `exp r`, which is strictly greater than zero; and
every value `value(t)` returns is strictly greater than zero. -/
theorem value_strictly_positive :
    (∀ (W : LinearAlgorithm ℝ) (xs ys : List ℝ) (h : LogLinearInterpolationImpl ℝ W),
        LogLinearInterpolation W Real.log xs ys = .ok h →
        ∀ t : ℝ,
          (∀ r, W.evaluate h.interpolation h.x h.logY t true = .ok r →
            h.value Real.exp t = .ok (Real.exp r) ∧ 0 < Real.exp r) ∧
          (∀ v, h.value Real.exp t = .ok v → 0 < v)) ∧
    (∀ (W : CubicSplineAlgorithm ℝ) (xs ys : List ℝ) (l : BoundaryCondition) (lv : ℝ)
        (r : BoundaryCondition) (rv : ℝ) (c : Bool) (h : LogCubicInterpolationImpl ℝ W),
        LogCubicInterpolation W Real.log xs ys l lv r rv c = .ok h →
        ∀ t : ℝ,
          (∀ r, W.evaluate h.interpolation h.x h.logY t true = .ok r →
            h.value Real.exp t = .ok (Real.exp r) ∧ 0 < Real.exp r) ∧
          (∀ v, h.value Real.exp t = .ok v → 0 < v)) := by
  constructor
  · intro W xs ys h _ t
    constructor
    · intro r hr
      refine ⟨?_, Real.exp_pos r⟩
      simp only [LogLinearInterpolationImpl.value, hr]
    · intro v hv
      simp only [LogLinearInterpolationImpl.value] at hv
      cases he : W.evaluate h.interpolation h.x h.logY t true with
      | error e => rw [he] at hv; simp at hv
      | ok r =>
        rw [he] at hv
        simp only [Except.ok.injEq] at hv
        rw [← hv]
        exact Real.exp_pos r
  · intro W xs ys l lv r rv c h _ t
    constructor
    · intro r hr
      refine ⟨?_, Real.exp_pos r⟩
      simp only [LogCubicInterpolationImpl.value, hr]
    · intro v hv
      simp only [LogCubicInterpolationImpl.value] at hv
      cases he : W.evaluate h.interpolation h.x h.logY t true with
      | error e => rw [he] at hv; simp at hv
      | ok r =>
        rw [he] at hv
        simp only [Except.ok.injEq] at hv
        rw [← hv]
        exact Real.exp_pos r

/-- Witness for C9: the log-linear handle over `x = [1, 2]`, `y = [1, 2]` evaluated at
`t = 5`, outside the knot range. -/
theorem value_strictly_positive_witness :
    ∀ v, LogLinearInterpolationImpl.value Real.exp
        ({ x := [1, 2], yBegin := [1, 2], logY := [Real.log 1, Real.log 2],
           interpolation := () } :
          LogLinearInterpolationImpl ℝ (piecewiseLinearAlgorithm ℝ Extrapolation.linear)) 5
        = .ok v → 0 < v :=
  (value_strictly_positive.1 (piecewiseLinearAlgorithm ℝ Extrapolation.linear) [1, 2] [1, 2] _
    sample_handle 5).2

/-! ### The `LogCubic` factory -/

/-- C7. For every `(x, y)` and every five parameters `(l, lv, r, rv, m)`,
`LogCubic(l, lv, r, rv, m).interpolate(x, y)` is `LogCubicInterpolation(x, y, l, lv, r,
rv, m)`; it yields a handle exactly when every ordinate is positive and the wrapped
cubic-spline algorithm built over `(x, logY)` with left kind `l`, left value `lv`, right
kind `r`, right value `rv` and monotonicity flag `m`, each in its own position, builds,
and the handle then stores that algorithm and these five parameters.  The
default-constructed `LogCubic()` holds left = `NotAKnot` with value `0`, right =
`SecondDerivative` with value `0`, and the monotonicity constraint enabled. -/
theorem logCubic_forwards_parameters (log : R → R) :
    (∀ (W : CubicSplineAlgorithm R) (xs ys : List R) (l : BoundaryCondition) (lv : R)
        (r : BoundaryCondition) (rv : R) (m : Bool),
        (LogCubic.new l lv r rv m).interpolate W log xs ys
          = LogCubicInterpolation W log xs ys l lv r rv m) ∧
    (∀ (W : CubicSplineAlgorithm R) (xs ys : List R) (l : BoundaryCondition) (lv : R)
        (r : BoundaryCondition) (rv : R) (m : Bool) (h : LogCubicInterpolationImpl R W),
        (LogCubic.new l lv r rv m).interpolate W log xs ys = .ok h ↔
          (AllPositive ys xs.length ∧
           ∃ a, W.fresh xs (logBuffer log ys xs.length) l lv r rv m = .ok a ∧
             h = { x := xs, yBegin := ys, logY := logBuffer log ys xs.length,
                   interpolation := a, constrained := m, leftType := l, rightType := r,
                   leftValue := lv, rightValue := rv })) ∧
    (∀ (W : CubicSplineAlgorithm R) (xs ys : List R),
        (LogCubic.default : LogCubic R).interpolate W log xs ys
          = LogCubicInterpolation W log xs ys BoundaryCondition.NotAKnot 0
              BoundaryCondition.SecondDerivative 0 true) ∧
    (LogCubic.default : LogCubic R).lefType = BoundaryCondition.NotAKnot ∧
    (LogCubic.default : LogCubic R).leftValue = 0 ∧
    (LogCubic.default : LogCubic R).rightType = BoundaryCondition.SecondDerivative ∧
    (LogCubic.default : LogCubic R).rightValue = 0 ∧
    (LogCubic.default : LogCubic R).monotone = true := by
  refine ⟨fun _ _ _ _ _ _ _ _ => rfl, ?_, fun _ _ _ => rfl, rfl, rfl, rfl, rfl, rfl⟩
  intro W xs ys l lv r rv m h
  exact LogCubicInterpolation_eq_ok_iff W log xs ys l lv r rv m h

/-! ### The piecewise-linear curve -/

theorem piecewiseLinear_chord :
    ∀ (xs ys : List R) (i : Nat) (a b u v t : R), xs.Sorted (· < ·) →
      xs[i]? = some a → xs[i + 1]? = some b → ys[i]? = some u → ys[i + 1]? = some v →
      (i = 0 ∨ a ≤ t) → (i + 2 = xs.length ∨ t ≤ b) →
      piecewiseLinear xs ys t = u + (t - a) * ((v - u) / (b - a)) := by
  intro xs
  induction xs with
  | nil => intro ys i a b u v t _ ha; simp at ha
  | cons x0 xt ih =>
    intro ys i a b u v t hs ha hb hu hv hlo hhi
    cases xt with
    | nil => simp at hb
    | cons x1 rest =>
      match ys, hu, hv with
      | [], hu, _ => simp at hu
      | [_], _, hv => simp at hv
      | y0 :: y1 :: yrest, hu, hv =>
        have hsort := List.sorted_cons.mp hs
        have h01 : x0 < x1 := hsort.1 x1 (by simp)
        have hne : x1 - x0 ≠ 0 := sub_ne_zero.mpr (ne_of_gt h01)
        rw [piecewiseLinear]
        cases i with
        | zero =>
          simp only [List.getElem?_cons_zero, zero_add, List.getElem?_cons_succ,
            Option.some.injEq] at ha hb hu hv
          subst ha hb hu hv
          have hcond : t ≤ x1 ∨ rest = [] := by
            rcases hhi with hl | ht
            · right
              simp only [List.length_cons, zero_add] at hl
              exact List.length_eq_zero.mp (by omega)
            · exact Or.inl ht
          rw [if_pos hcond]
        | succ j =>
          rw [List.getElem?_cons_succ] at ha hb hu hv
          have hat : a ≤ t := by
            rcases hlo with h0 | h
            · exact absurd h0 (Nat.succ_ne_zero j)
            · exact h
          have hx1a : x1 ≤ a := by
            cases j with
            | zero => simp at ha; exact le_of_eq ha
            | succ j' =>
              rw [List.getElem?_cons_succ] at ha
              exact le_of_lt ((List.sorted_cons.mp hsort.2).1 a (List.getElem?_mem ha))
          have hrest : rest ≠ [] := by
            intro h
            subst h
            simp at hb
          by_cases ht : t ≤ x1
          · have hta : t = a := le_antisymm (le_trans ht hx1a) hat
            have hax1 : a = x1 := le_antisymm (hta ▸ ht) hx1a
            have hj : j = 0 := by
              cases j with
              | zero => rfl
              | succ j' =>
                rw [List.getElem?_cons_succ] at ha
                have := (List.sorted_cons.mp hsort.2).1 a (List.getElem?_mem ha)
                rw [hax1] at this
                exact absurd this (lt_irrefl _)
            subst hj
            simp only [List.getElem?_cons_zero, Option.some.injEq] at hu
            subst hu
            rw [if_pos (Or.inl ht), hta, hax1]
            field_simp
          · rw [if_neg (by simp [ht, hrest])]
            refine ih (y1 :: yrest) j a b u v t hsort.2 ha hb hu hv (Or.inr hat) ?_
            rcases hhi with hl | h
            · left
              simp only [List.length_cons] at hl ⊢
              omega
            · exact Or.inr h

theorem piecewiseLinear_segment (xs ys : List R) (i : Nat) (a b u v t : R)
    (hs : xs.Sorted (· < ·)) (ha : xs[i]? = some a) (hb : xs[i + 1]? = some b)
    (hu : ys[i]? = some u) (hv : ys[i + 1]? = some v) (hat : a ≤ t) (htb : t ≤ b) :
    piecewiseLinear xs ys t = u + (t - a) * ((v - u) / (b - a)) :=
  piecewiseLinear_chord xs ys i a b u v t hs ha hb hu hv (Or.inr hat) (Or.inr htb)

theorem sorted_head_le {xs : List R} (hs : xs.Sorted (· < ·)) {i : Nat} {a : R}
    (ha : xs[i]? = some a) : xs.headD 0 ≤ a := by
  cases xs with
  | nil => simp at ha
  | cons x0 rest =>
    cases i with
    | zero =>
      simp only [List.getElem?_cons_zero, Option.some.injEq] at ha
      simp [ha]
    | succ j =>
      rw [List.getElem?_cons_succ] at ha
      exact le_of_lt ((List.sorted_cons.mp hs).1 a (List.getElem?_mem ha))

theorem sorted_le_last : ∀ (xs : List R), xs.Sorted (· < ·) → ∀ (i : Nat) (a : R),
    xs[i]? = some a → a ≤ xs.getLastD 0 := by
  intro xs
  induction xs with
  | nil => intro _ i a ha; simp at ha
  | cons x0 rest ih =>
    intro hs i a ha
    cases rest with
    | nil =>
      cases i with
      | zero =>
        simp only [List.getElem?_cons_zero, Option.some.injEq] at ha
        simp [ha]
      | succ j => simp at ha
    | cons x1 rest' =>
      have hs' := List.sorted_cons.mp hs
      have hlast : (x0 :: x1 :: rest').getLastD 0 = (x1 :: rest').getLastD 0 := by
        simp [List.getLastD]
      rw [hlast]
      cases i with
      | zero =>
        simp only [List.getElem?_cons_zero, Option.some.injEq] at ha
        subst ha
        exact le_trans (le_of_lt (hs'.1 x1 (by simp)))
          (ih hs'.2 0 x1 (by simp))
      | succ j =>
        rw [List.getElem?_cons_succ] at ha
        exact ih hs'.2 j a ha

theorem exists_segment : ∀ (xs : List R), xs.Sorted (· < ·) → 2 ≤ xs.length →
    ∀ t : R, xs.headD 0 ≤ t → t ≤ xs.getLastD 0 →
    ∃ (i : Nat) (a b : R), xs[i]? = some a ∧ xs[i + 1]? = some b ∧ a ≤ t ∧ t ≤ b := by
  intro xs
  induction xs with
  | nil => intro _ h; simp at h
  | cons x0 rest ih =>
    intro hs hlen t h0 h1
    cases rest with
    | nil => simp at hlen
    | cons x1 rest' =>
      have hs' := List.sorted_cons.mp hs
      by_cases ht : t ≤ x1
      · exact ⟨0, x0, x1, by simp, by simp, by simpa using h0, ht⟩
      · have hlast : (x0 :: x1 :: rest').getLastD 0 = (x1 :: rest').getLastD 0 := by
          simp [List.getLastD]
        rw [hlast] at h1
        have hne : 2 ≤ (x1 :: rest').length := by
          cases rest' with
          | nil => simp [List.getLastD] at h1; exact absurd h1 ht
          | cons _ _ => simp
        obtain ⟨i, a, b, ha, hb, hat, htb⟩ :=
          ih hs'.2 hne t (by simpa using le_of_lt (not_le.mp ht)) h1
        exact ⟨i + 1, a, b, by simpa using ha, by simpa using hb, hat, htb⟩

theorem linearValue_of_mem_range (mode : Extrapolation) (xs ys : List R) (t : R)
    (h0 : xs.headD 0 ≤ t) (h1 : t ≤ xs.getLastD 0) :
    linearValue mode xs ys t = piecewiseLinear xs ys t := by
  cases mode with
  | linear => rfl
  | constant =>
    simp only [linearValue]
    rw [min_eq_left h1, max_eq_right h0]

theorem sorted_lt_of_getElem? : ∀ {xs : List R}, xs.Sorted (· < ·) → ∀ {i : Nat} {a b : R},
    xs[i]? = some a → xs[i + 1]? = some b → a < b := by
  intro xs
  induction xs with
  | nil => intro _ i a b ha; simp at ha
  | cons x0 rest ih =>
    intro hs i a b ha hb
    have hs' := List.sorted_cons.mp hs
    rw [List.getElem?_cons_succ] at hb
    cases i with
    | zero =>
      simp only [List.getElem?_cons_zero, Option.some.injEq] at ha
      subst ha
      exact hs'.1 b (List.getElem?_mem hb)
    | succ j =>
      rw [List.getElem?_cons_succ] at ha
      exact ih hs'.2 ha hb

theorem sorted_le_of_getElem? {xs : List R} (hs : xs.Sorted (· < ·)) {i : Nat} {a b : R}
    (ha : xs[i]? = some a) (hb : xs[i + 1]? = some b) : a ≤ b :=
  le_of_lt (sorted_lt_of_getElem? hs ha hb)

/-! ### The log-linear handle over the piecewise-linear algorithm -/

theorem piecewiseLinearAlgorithm_handle (mode : Extrapolation) (log : R → R) (xs ys : List R)
    (hlen : 2 ≤ xs.length) (hp : AllPositive ys xs.length) :
    LogLinearInterpolation (piecewiseLinearAlgorithm R mode) log xs ys
      = .ok ({ x := xs, yBegin := ys, logY := logBuffer log ys xs.length,
               interpolation := () } :
          LogLinearInterpolationImpl R (piecewiseLinearAlgorithm R mode)) := by
  rw [LogLinearInterpolation_eq_ok_iff]
  refine ⟨hp, (), ?_, rfl⟩
  simp [LinearAlgorithm.fresh, piecewiseLinearAlgorithm, not_lt.mpr hlen]

theorem piecewiseLinearAlgorithm_value (mode : Extrapolation) (exp : R → R)
    (s : LogLinearInterpolationImpl R (piecewiseLinearAlgorithm R mode)) (t : R) :
    s.value exp t = .ok (exp (linearValue mode s.x s.logY t)) := by
  simp [LogLinearInterpolationImpl.value, piecewiseLinearAlgorithm]

theorem logBuffer_getElem? (log : R → R) (ys : List R) (n i : Nat) (u : R)
    (hi : i < n) (hu : ys[i]? = some u) : (logBuffer log ys n)[i]? = some (log u) := by
  simp [logBuffer, List.getElem?_range hi, ordinate, List.getD_eq_getElem?_getD, hu]

theorem lt_length_of_getElem? {α : Type} {l : List α} {i : Nat} {a : α}
    (h : l[i]? = some a) : i < l.length := by
  by_contra hc
  rw [List.getElem?_eq_none (not_lt.mp hc)] at h
  simp at h

theorem logLinear_value_segment (mode : Extrapolation) (log exp : R → R)
    (xs ys : List R) (i : Nat) (a b u v t : R)
    (hs : xs.Sorted (· < ·)) (hp : AllPositive ys xs.length)
    (ha : xs[i]? = some a) (hb : xs[i + 1]? = some b)
    (hu : ys[i]? = some u) (hv : ys[i + 1]? = some v) (hat : a ≤ t) (htb : t ≤ b) :
    ∃ h, LogLinearInterpolation (piecewiseLinearAlgorithm R mode) log xs ys = .ok h ∧
      h.value exp t = .ok (exp (log u + (t - a) * ((log v - log u) / (b - a)))) := by
  have hi1 : i + 1 < xs.length := lt_length_of_getElem? hb
  refine ⟨_, piecewiseLinearAlgorithm_handle mode log xs ys (by omega) hp, ?_⟩
  rw [piecewiseLinearAlgorithm_value]
  simp only
  rw [linearValue_of_mem_range mode _ _ t (le_trans (sorted_head_le hs ha) hat)
    (le_trans htb (sorted_le_last xs hs _ b hb))]
  rw [piecewiseLinear_segment xs _ i a b (log u) (log v) t hs ha hb
    (logBuffer_getElem? log ys _ i u (by omega) hu)
    (logBuffer_getElem? log ys _ (i + 1) v hi1 hv) hat htb]

theorem exists_getElem? {α : Type} (l : List α) (i : Nat) (h : i < l.length) :
    ∃ a, l[i]? = some a :=
  ⟨l[i], List.getElem?_eq_getElem h⟩

theorem getD_of_getElem? {α : Type} {l : List α} {i : Nat} {a : α} (d : α)
    (h : l[i]? = some a) : l.getD i d = a := by
  rw [List.getD_eq_getElem?_getD, h]
  rfl

theorem piecewiseLinear_at_knot (xs ys : List R) (i : Nat) (a u : R)
    (hs : xs.Sorted (· < ·)) (hlen : 2 ≤ xs.length) (hy : ys.length = xs.length)
    (ha : xs[i]? = some a) (hu : ys[i]? = some u) : piecewiseLinear xs ys a = u := by
  have hi : i < xs.length := lt_length_of_getElem? ha
  by_cases hlast : i + 1 < xs.length
  · obtain ⟨b, hb⟩ := exists_getElem? xs (i + 1) hlast
    obtain ⟨v, hv⟩ := exists_getElem? ys (i + 1) (hy ▸ hlast)
    rw [piecewiseLinear_segment xs ys i a b u v a hs ha hb hu hv (le_refl _)
      (sorted_le_of_getElem? hs ha hb)]
    simp
  · obtain ⟨j, rfl⟩ : ∃ j, i = j + 1 := ⟨i - 1, by omega⟩
    obtain ⟨c, hc⟩ := exists_getElem? xs j (by omega)
    obtain ⟨w, hw⟩ := exists_getElem? ys j (by omega)
    have hlt : c < a := sorted_lt_of_getElem? hs hc ha
    rw [piecewiseLinear_segment xs ys j c a w u a hs hc ha hw hu (le_of_lt hlt) (le_refl _)]
    have hne : a - c ≠ 0 := sub_ne_zero.mpr (ne_of_gt hlt)
    field_simp

theorem piecewiseLinearAlgorithm_reproducesKnots (mode : Extrapolation) (xs ys : List R)
    (hs : xs.Sorted (· < ·)) (hlen : 2 ≤ xs.length) (hy : ys.length = xs.length) :
    (piecewiseLinearAlgorithm R mode).ReproducesKnots xs ys := by
  refine ⟨(),
    by simp [LinearAlgorithm.fresh, piecewiseLinearAlgorithm, not_lt.mpr hlen], ?_⟩
  intro i hi
  obtain ⟨a, ha⟩ := exists_getElem? xs i hi
  obtain ⟨u, hu⟩ := exists_getElem? ys i (hy ▸ hi)
  rw [getD_of_getElem? 0 ha, getD_of_getElem? 0 hu]
  have hval : linearValue mode xs ys a = u := by
    rw [linearValue_of_mem_range mode xs ys _ (sorted_head_le hs ha)
      (sorted_le_last xs hs i _ ha)]
    exact piecewiseLinear_at_knot xs ys i a u hs hlen hy ha hu
  simp only [piecewiseLinearAlgorithm]
  rw [if_pos (Or.inl trivial), hval]

/-! ### Reproduction of the knots -/

theorem map_log_getD (ys : List ℝ) (i : Nat) (hi : i < ys.length) :
    (ys.map Real.log).getD i 0 = Real.log (ys.getD i 0) := by
  simp [List.getD_eq_getElem?_getD, List.getElem?_eq_getElem hi]

/-- C3. Over the reals, for every strictly increasing `x` and strictly positive `y` with
`n ≥ 2` points: if the wrapped linear algorithm reproduces its own knots on
`(x, log y)`, then `LogLinearInterpolation(x, y)` is constructed and its
`value(x[i])` is `y[i]` for every knot index `i < n`; and for every choice of the two
boundary conditions and of the monotonicity flag, if the wrapped cubic-spline algorithm
built with them reproduces its own knots on `(x, log y)`, then
`LogCubicInterpolation(x, y, ...)` is constructed and its `value(x[i])` is `y[i]` for
every `i < n`. -/
theorem knots_reproduced :
    (∀ (W : LinearAlgorithm ℝ) (xs ys : List ℝ),
        xs.Sorted (· < ·) → 2 ≤ xs.length → ys.length = xs.length →
        AllPositive ys xs.length → W.ReproducesKnots xs (ys.map Real.log) →
        ∃ h, LogLinearInterpolation W Real.log xs ys = .ok h ∧
          ∀ i, i < xs.length → h.value Real.exp (xs.getD i 0) = .ok (ys.getD i 0)) ∧
    (∀ (W : CubicSplineAlgorithm ℝ) (xs ys : List ℝ) (l : BoundaryCondition) (lv : ℝ)
        (r : BoundaryCondition) (rv : ℝ) (m : Bool),
        xs.Sorted (· < ·) → 2 ≤ xs.length → ys.length = xs.length →
        AllPositive ys xs.length → W.ReproducesKnots xs (ys.map Real.log) l lv r rv m →
        ∃ h, LogCubicInterpolation W Real.log xs ys l lv r rv m = .ok h ∧
          ∀ i, i < xs.length → h.value Real.exp (xs.getD i 0) = .ok (ys.getD i 0)) := by
  constructor
  · intro W xs ys _ _ hy hp hW
    obtain ⟨a, hfresh, hev⟩ := hW
    have hbuf : logBuffer Real.log ys xs.length = ys.map Real.log := by
      rw [← hy, logBuffer_eq_map]
    refine ⟨_, (LogLinearInterpolation_eq_ok_iff W Real.log xs ys _).mpr
      ⟨hp, a, by rw [hbuf]; exact hfresh, rfl⟩, ?_⟩
    intro i hi
    simp only [LogLinearInterpolationImpl.value, hbuf, hev i hi]
    have hpos : 0 < ys.getD i 0 := hp i hi
    rw [map_log_getD ys i (hy ▸ hi), Real.exp_log hpos]
  · intro W xs ys l lv r rv m _ _ hy hp hW
    obtain ⟨a, hfresh, hev⟩ := hW
    have hbuf : logBuffer Real.log ys xs.length = ys.map Real.log := by
      rw [← hy, logBuffer_eq_map]
    refine ⟨_, (LogCubicInterpolation_eq_ok_iff W Real.log xs ys l lv r rv m _).mpr
      ⟨hp, a, by rw [hbuf]; exact hfresh, rfl⟩, ?_⟩
    intro i hi
    simp only [LogCubicInterpolationImpl.value, hbuf, hev i hi]
    have hpos : 0 < ys.getD i 0 := hp i hi
    rw [map_log_getD ys i (hy ▸ hi), Real.exp_log hpos]

theorem sample_sorted : ([1, 2, 3] : List ℝ).Sorted (· < ·) := by
  norm_num [List.Sorted]

theorem sample_allPositive : AllPositive ([1, 2, 4] : List ℝ) ([1, 2, 3] : List ℝ).length := by
  intro j hj
  simp only [List.length_cons, List.length_nil] at hj
  interval_cases j <;> norm_num [ordinate]

theorem chordSpline_reproducesKnots (xs ys : List R) (l : BoundaryCondition) (lv : R)
    (r : BoundaryCondition) (rv : R) (m : Bool)
    (hs : xs.Sorted (· < ·)) (hlen : 2 ≤ xs.length) (hy : ys.length = xs.length) :
    (chordSpline R).ReproducesKnots xs ys l lv r rv m := by
  refine ⟨((l, lv), (r, rv), m),
    by simp [CubicSplineAlgorithm.fresh, chordSpline, not_lt.mpr hlen], ?_⟩
  intro i hi
  obtain ⟨a, ha⟩ := exists_getElem? xs i hi
  obtain ⟨u, hu⟩ := exists_getElem? ys i (hy ▸ hi)
  rw [getD_of_getElem? 0 ha, getD_of_getElem? 0 hu]
  simp only [chordSpline]
  rw [if_pos (Or.inl trivial), piecewiseLinear_at_knot xs ys i a u hs hlen hy ha hu]

/-- Witness for C3: over `x = [1, 2, 3]`, `y = [1, 2, 4]`, the log-linear handle with the
piecewise-linear algorithm returns `y[i]` at every knot, and so does the log-cubic
handle with a knot-reproducing wrapped algorithm, first-derivative boundary conditions
and the monotonicity constraint off. -/
theorem knots_reproduced_witness :
    (∃ h, LogLinearInterpolation (piecewiseLinearAlgorithm ℝ Extrapolation.linear) Real.log
        [1, 2, 3] [1, 2, 4] = .ok h ∧
      ∀ i, i < ([1, 2, 3] : List ℝ).length →
        h.value Real.exp (([1, 2, 3] : List ℝ).getD i 0)
          = .ok (([1, 2, 4] : List ℝ).getD i 0)) ∧
    (∃ h, LogCubicInterpolation (chordSpline ℝ) Real.log [1, 2, 3] [1, 2, 4]
        BoundaryCondition.FirstDerivative 1 BoundaryCondition.FirstDerivative 2 false
          = .ok h ∧
      ∀ i, i < ([1, 2, 3] : List ℝ).length →
        h.value Real.exp (([1, 2, 3] : List ℝ).getD i 0)
          = .ok (([1, 2, 4] : List ℝ).getD i 0)) :=
  ⟨knots_reproduced.1 (piecewiseLinearAlgorithm ℝ Extrapolation.linear) [1, 2, 3] [1, 2, 4]
    sample_sorted (by simp) (by simp) sample_allPositive
    (piecewiseLinearAlgorithm_reproducesKnots Extrapolation.linear [1, 2, 3] _ sample_sorted
      (by simp) (by simp)),
   knots_reproduced.2 (chordSpline ℝ) [1, 2, 3] [1, 2, 4]
    BoundaryCondition.FirstDerivative 1 BoundaryCondition.FirstDerivative 2 false
    sample_sorted (by simp) (by simp) sample_allPositive
    (chordSpline_reproducesKnots [1, 2, 3] _ _ _ _ _ _ sample_sorted (by simp) (by simp))⟩

/-! ### Log-linear interpolation is geometric interpolation -/

theorem exp_chord_eq_rpow (u v a b t : ℝ) (hu : 0 < u) (hv : 0 < v) :
    Real.exp (Real.log u + (t - a) * ((Real.log v - Real.log u) / (b - a)))
      = u ^ (1 - (t - a) / (b - a)) * v ^ ((t - a) / (b - a)) := by
  rw [Real.rpow_def_of_pos hu, Real.rpow_def_of_pos hv, ← Real.exp_add]
  congr 1
  ring

theorem ordinate_of_getElem? {ys : List R} {i : Nat} {u : R} (h : ys[i]? = some u) :
    ordinate ys i = u :=
  getD_of_getElem? 0 h

/-- C5. Over the reals, with the wrapped algorithm being piecewise-linear interpolation
(either way of extrapolating): for `x = [1, 2, 3, 4]` and `y = [1, 2, 4, 8]`,
`LogLinearInterpolation(x, y).value(2.5) = exp((ln 2 + ln 4) / 2) = sqrt 8`; and for
every strictly increasing `x`, strictly positive `y` of the same length, and every `t`
with `x[i] ≤ t ≤ x[i+1]`, the handle is constructed and its value at `t` is
`y[i]^(1-w) * y[i+1]^w` with `w = (t - x[i]) / (x[i+1] - x[i])`. -/
theorem logLinear_value_is_geometric :
    (∀ mode : Extrapolation,
        ∃ h, LogLinearInterpolation (piecewiseLinearAlgorithm ℝ mode) Real.log
            [1, 2, 3, 4] [1, 2, 4, 8] = .ok h ∧
          h.value Real.exp (5 / 2) = .ok (Real.exp ((Real.log 2 + Real.log 4) / 2)) ∧
          Real.exp ((Real.log 2 + Real.log 4) / 2) = Real.sqrt 8) ∧
    (∀ (mode : Extrapolation) (xs ys : List ℝ) (i : Nat) (a b u v t : ℝ),
        xs.Sorted (· < ·) → ys.length = xs.length → AllPositive ys xs.length →
        xs[i]? = some a → xs[i + 1]? = some b → ys[i]? = some u → ys[i + 1]? = some v →
        a ≤ t → t ≤ b →
        ∃ h, LogLinearInterpolation (piecewiseLinearAlgorithm ℝ mode) Real.log xs ys = .ok h ∧
          h.value Real.exp t
            = .ok (u ^ (1 - (t - a) / (b - a)) * v ^ ((t - a) / (b - a)))) := by
  constructor
  · intro mode
    have hsorted : ([1, 2, 3, 4] : List ℝ).Sorted (· < ·) := by norm_num [List.Sorted]
    have hpos : AllPositive ([1, 2, 4, 8] : List ℝ) ([1, 2, 3, 4] : List ℝ).length := by
      intro j hj
      simp only [List.length_cons, List.length_nil] at hj
      interval_cases j <;> norm_num [ordinate]
    obtain ⟨h, hh, hval⟩ := logLinear_value_segment mode Real.log Real.exp
      [1, 2, 3, 4] [1, 2, 4, 8] 1 2 3 2 4 (5 / 2) hsorted hpos (by simp) (by simp)
      (by simp) (by simp) (by norm_num) (by norm_num)
    refine ⟨h, hh, ?_, ?_⟩
    · rw [hval]
      congr 2
      ring
    · have h8 : Real.log 2 + Real.log 4 = Real.log 8 := by
        rw [← Real.log_mul (by norm_num) (by norm_num)]
        norm_num
      rw [h8, Real.sqrt_eq_rpow, Real.rpow_def_of_pos (by norm_num)]
      congr 1
      ring
  · intro mode xs ys i a b u v t hs _ hp ha hb hu hv hat htb
    have hi1 : i + 1 < xs.length := lt_length_of_getElem? hb
    have hupos : 0 < u := ordinate_of_getElem? hu ▸ hp i (by omega)
    have hvpos : 0 < v := ordinate_of_getElem? hv ▸ hp (i + 1) hi1
    obtain ⟨h, hh, hval⟩ := logLinear_value_segment mode Real.log Real.exp xs ys i a b u v t
      hs hp ha hb hu hv hat htb
    exact ⟨h, hh, by rw [hval, exp_chord_eq_rpow u v a b t hupos hvpos]⟩

/-- Witness for C5: the general formula at `x = [1, 2, 3]`, `y = [1, 2, 4]`, segment
`i = 0`, `t = 3 / 2`. -/
theorem logLinear_value_is_geometric_witness :
    ∃ h, LogLinearInterpolation (piecewiseLinearAlgorithm ℝ Extrapolation.constant) Real.log
        [1, 2, 3] [1, 2, 4] = .ok h ∧
      h.value Real.exp (3 / 2)
        = .ok ((1 : ℝ) ^ (1 - ((3 / 2 : ℝ) - 1) / (2 - 1)) *
            (2 : ℝ) ^ (((3 / 2 : ℝ) - 1) / (2 - 1))) :=
  logLinear_value_is_geometric.2 Extrapolation.constant [1, 2, 3] [1, 2, 4] 0 1 2 1 2 (3 / 2)
    sample_sorted (by simp) sample_allPositive (by simp) (by simp) (by simp) (by simp)
    (by norm_num) (by norm_num)

/-! ### Locality of the log-linear variant -/

theorem piecewiseLinear_local (xs ys ys' : List R) (k : Nat) (t : R)
    (hs : xs.Sorted (· < ·)) (hlen : 2 ≤ xs.length)
    (hy : ys.length = xs.length) (hy' : ys'.length = xs.length)
    (hdiff : ∀ j, j ≠ k → ys[j]? = ys'[j]?) (hout : OutsideNeighbours xs k t)
    (h0 : xs.headD 0 ≤ t) (h1 : t ≤ xs.getLastD 0) :
    piecewiseLinear xs ys t = piecewiseLinear xs ys' t := by
  obtain ⟨i, a, b, ha, hb, hat, htb⟩ := exists_segment xs hs hlen t h0 h1
  have hi1 : i + 1 < xs.length := lt_length_of_getElem? hb
  obtain ⟨u, hu⟩ := exists_getElem? ys i (by omega)
  obtain ⟨v, hv⟩ := exists_getElem? ys (i + 1) (by omega)
  obtain ⟨u', hu'⟩ := exists_getElem? ys' i (by omega)
  obtain ⟨v', hv'⟩ := exists_getElem? ys' (i + 1) (by omega)
  have hab : a < b := sorted_lt_of_getElem? hs ha hb
  have hne : b - a ≠ 0 := sub_ne_zero.mpr (ne_of_gt hab)
  rw [piecewiseLinear_segment xs ys i a b u v t hs ha hb hu hv hat htb,
    piecewiseLinear_segment xs ys' i a b u' v' t hs ha hb hu' hv' hat htb]
  by_cases hik : i = k
  · subst hik
    have hvv : v = v' := by
      have := hdiff (i + 1) (by omega)
      rw [hv, hv'] at this
      exact Option.some.inj this
    rcases hout with ⟨j, c, hj, hc, htc⟩ | ⟨b', hb', hbt⟩
    · subst hj
      have hca : c < a := sorted_lt_of_getElem? hs hc ha
      exact absurd (lt_of_le_of_lt (le_trans hat htc) hca) (lt_irrefl _)
    · rw [hb] at hb'
      have hbb : b = b' := Option.some.inj hb'
      have htb' : t = b := le_antisymm htb (hbb ▸ hbt)
      rw [htb', ← hvv]
      field_simp
  · by_cases hik1 : i + 1 = k
    · subst hik1
      have huu : u = u' := by
        have := hdiff i (by omega)
        rw [hu, hu'] at this
        exact Option.some.inj this
      rcases hout with ⟨j, c, hj, hc, htc⟩ | ⟨b', hb', hbt⟩
      · have hji : j = i := by omega
        subst hji
        rw [ha] at hc
        have hac : a = c := Option.some.inj hc
        have hta : t = a := le_antisymm (hac ▸ htc) hat
        rw [hta, ← huu]
        simp
      · have hbb : b < b' := sorted_lt_of_getElem? hs hb hb'
        exact absurd (lt_of_lt_of_le hbb (le_trans hbt htb)) (lt_irrefl _)
    · have huu : u = u' := by
        have := hdiff i hik
        rw [hu, hu'] at this
        exact Option.some.inj this
      have hvv : v = v' := by
        have := hdiff (i + 1) hik1
        rw [hv, hv'] at this
        exact Option.some.inj this
      rw [huu, hvv]

theorem outsideNeighbours_clamp (xs : List R) (k : Nat) (t : R) (hs : xs.Sorted (· < ·))
    (hout : OutsideNeighbours xs k t) :
    OutsideNeighbours xs k (max (xs.headD 0) (min t (xs.getLastD 0))) := by
  rcases hout with ⟨j, c, hj, hc, htc⟩ | ⟨b, hb, hbt⟩
  · exact Or.inl ⟨j, c, hj, hc,
      max_le (sorted_head_le hs hc) (le_trans (min_le_left _ _) htc)⟩
  · exact Or.inr ⟨b, hb,
      le_trans (le_min hbt (sorted_le_last xs hs _ b hb)) (le_max_right _ _)⟩

theorem piecewiseLinear_local_left (xs ys ys' : List R) (k : Nat) (t : R)
    (hs : xs.Sorted (· < ·)) (hlen : 2 ≤ xs.length)
    (hy : ys.length = xs.length) (hy' : ys'.length = xs.length)
    (hdiff : ∀ j, j ≠ k → ys[j]? = ys'[j]?) (hout : OutsideNeighbours xs k t)
    (ht : t < xs.headD 0) (hk : k ≠ 1) :
    piecewiseLinear xs ys t = piecewiseLinear xs ys' t := by
  obtain ⟨a, ha⟩ := exists_getElem? xs 0 (by omega)
  obtain ⟨b, hb⟩ := exists_getElem? xs (0 + 1) (by omega)
  obtain ⟨u, hu⟩ := exists_getElem? ys 0 (by omega)
  obtain ⟨v, hv⟩ := exists_getElem? ys (0 + 1) (by omega)
  obtain ⟨u', hu'⟩ := exists_getElem? ys' 0 (by omega)
  obtain ⟨v', hv'⟩ := exists_getElem? ys' (0 + 1) (by omega)
  have hta : t < a := lt_of_lt_of_le ht (sorted_head_le hs ha)
  have htb : t ≤ b := le_of_lt (lt_trans hta (sorted_lt_of_getElem? hs ha hb))
  have hk0 : k ≠ 0 := by
    rintro rfl
    rcases hout with ⟨j, c, hj, _, _⟩ | ⟨b', hb', hbt⟩
    · omega
    · rw [hb] at hb'
      exact absurd (Option.some.inj hb' ▸ hbt) (not_le.mpr (lt_of_lt_of_le hta
        (sorted_le_of_getElem? hs ha hb)))
  rw [piecewiseLinear_chord xs ys 0 a b u v t hs ha hb hu hv (Or.inl rfl) (Or.inr htb),
    piecewiseLinear_chord xs ys' 0 a b u' v' t hs ha hb hu' hv' (Or.inl rfl) (Or.inr htb)]
  have huu : u = u' := by
    have := hdiff 0 (Ne.symm hk0)
    rw [hu, hu'] at this
    exact Option.some.inj this
  have hvv : v = v' := by
    have := hdiff (0 + 1) (Ne.symm hk)
    rw [hv, hv'] at this
    exact Option.some.inj this
  rw [huu, hvv]

theorem piecewiseLinear_local_right (xs ys ys' : List R) (k : Nat) (t : R)
    (hs : xs.Sorted (· < ·)) (hlen : 2 ≤ xs.length)
    (hy : ys.length = xs.length) (hy' : ys'.length = xs.length)
    (hdiff : ∀ j, j ≠ k → ys[j]? = ys'[j]?) (hout : OutsideNeighbours xs k t)
    (ht : xs.getLastD 0 < t) (hk : k + 2 ≠ xs.length) :
    piecewiseLinear xs ys t = piecewiseLinear xs ys' t := by
  obtain ⟨i, hi⟩ : ∃ i, i + 2 = xs.length := ⟨xs.length - 2, by omega⟩
  obtain ⟨a, ha⟩ := exists_getElem? xs i (by omega)
  obtain ⟨b, hb⟩ := exists_getElem? xs (i + 1) (by omega)
  obtain ⟨u, hu⟩ := exists_getElem? ys i (by omega)
  obtain ⟨v, hv⟩ := exists_getElem? ys (i + 1) (by omega)
  obtain ⟨u', hu'⟩ := exists_getElem? ys' i (by omega)
  obtain ⟨v', hv'⟩ := exists_getElem? ys' (i + 1) (by omega)
  have hab : a < b := sorted_lt_of_getElem? hs ha hb
  have hbt : b < t := lt_of_le_of_lt (sorted_le_last xs hs _ b hb) ht
  have hat : a ≤ t := le_of_lt (lt_trans hab hbt)
  have hki : i ≠ k := by
    intro h
    omega
  have hki1 : i + 1 ≠ k := by
    rintro rfl
    rcases hout with ⟨j, c, hj, hc, htc⟩ | ⟨b', hb', _⟩
    · have hji : j = i := by omega
      subst hji
      rw [ha] at hc
      exact absurd (Option.some.inj hc ▸ htc) (not_le.mpr (lt_trans hab hbt))
    · have := lt_length_of_getElem? hb'
      omega
  rw [piecewiseLinear_chord xs ys i a b u v t hs ha hb hu hv (Or.inr hat) (Or.inl hi),
    piecewiseLinear_chord xs ys' i a b u' v' t hs ha hb hu' hv' (Or.inr hat) (Or.inl hi)]
  have huu : u = u' := by
    have := hdiff i hki
    rw [hu, hu'] at this
    exact Option.some.inj this
  have hvv : v = v' := by
    have := hdiff (i + 1) hki1
    rw [hv, hv'] at this
    exact Option.some.inj this
  rw [huu, hvv]

theorem linearValue_local (mode : Extrapolation) (xs ys ys' : List R) (k : Nat) (t : R)
    (hs : xs.Sorted (· < ·)) (hlen : 2 ≤ xs.length)
    (hy : ys.length = xs.length) (hy' : ys'.length = xs.length)
    (hdiff : ∀ j, j ≠ k → ys[j]? = ys'[j]?) (hout : OutsideNeighbours xs k t)
    (hrange : mode = Extrapolation.constant ∨
      ((xs.headD 0 ≤ t ∨ k ≠ 1) ∧ (t ≤ xs.getLastD 0 ∨ k + 2 ≠ xs.length))) :
    linearValue mode xs ys t = linearValue mode xs ys' t := by
  obtain ⟨x0, hx0⟩ := exists_getElem? xs 0 (by omega)
  have hhead : xs.headD 0 = x0 := by
    cases xs with
    | nil => simp at hx0
    | cons c cs => simpa using hx0
  have hle : xs.headD 0 ≤ xs.getLastD 0 := hhead ▸ sorted_le_last xs hs 0 x0 hx0
  cases mode with
  | linear =>
    rcases hrange with hm | ⟨hl, hr⟩
    · exact absurd hm (by decide)
    · simp only [linearValue]
      by_cases h0 : xs.headD 0 ≤ t
      · by_cases h1 : t ≤ xs.getLastD 0
        · exact piecewiseLinear_local xs ys ys' k t hs hlen hy hy' hdiff hout h0 h1
        · exact piecewiseLinear_local_right xs ys ys' k t hs hlen hy hy' hdiff hout
            (not_le.mp h1) (hr.resolve_left h1)
      · exact piecewiseLinear_local_left xs ys ys' k t hs hlen hy hy' hdiff hout
          (not_le.mp h0) (hl.resolve_left h0)
  | constant =>
    exact piecewiseLinear_local xs ys ys' k _ hs hlen hy hy' hdiff
      (outsideNeighbours_clamp xs k t hs hout) (le_max_left _ _)
      (max_le hle (min_le_right _ _))

theorem logBuffer_local (log : R → R) (ys ys' : List R) (n k : Nat)
    (hdiff : ∀ j, j ≠ k → ys[j]? = ys'[j]?) :
    ∀ j, j ≠ k → (logBuffer log ys n)[j]? = (logBuffer log ys' n)[j]? := by
  intro j hj
  by_cases hjn : j < n
  · simp [logBuffer, List.getElem?_range hjn, ordinate, List.getD_eq_getElem?_getD,
      hdiff j hj]
  · rw [List.getElem?_eq_none (by simpa [logBuffer_length] using hjn),
      List.getElem?_eq_none (by simpa [logBuffer_length] using hjn)]

theorem piecewiseLinearAlgorithm_update_changed (mode : Extrapolation) (log : R → R)
    (xs ys ys' : List R) (hlen : 2 ≤ xs.length) (hp' : AllPositive ys' xs.length) :
    LogLinearInterpolationImpl.update log
        ({ x := xs, yBegin := ys', logY := logBuffer log ys xs.length,
           interpolation := () } :
          LogLinearInterpolationImpl R (piecewiseLinearAlgorithm R mode))
      = (.ok (), ({ x := xs, yBegin := ys', logY := logBuffer log ys' xs.length,
                    interpolation := () } :
          LogLinearInterpolationImpl R (piecewiseLinearAlgorithm R mode))) := by
  rw [LogLinearInterpolationImpl.linear_update_eq_ok_iff]
  simp only [logBuffer_length]
  refine ⟨hp', (), ?_, rfl⟩
  simp [LinearAlgorithm.fresh, piecewiseLinearAlgorithm, not_lt.mpr hlen]

theorem piecewiseLinearAlgorithm_handle_length (mode : Extrapolation) (log : R → R)
    (xs ys : List R)
    (h : LogLinearInterpolationImpl R (piecewiseLinearAlgorithm R mode))
    (hh : LogLinearInterpolation (piecewiseLinearAlgorithm R mode) log xs ys = .ok h) :
    2 ≤ xs.length := by
  obtain ⟨_, a, ha, _⟩ := (LogLinearInterpolation_eq_ok_iff _ log xs ys h).mp hh
  by_contra hc
  simp [LinearAlgorithm.fresh, piecewiseLinearAlgorithm, not_le.mp hc] at ha

/-- C6, amended. With the wrapped algorithm being piecewise-linear interpolation: for
every strictly increasing `x`, strictly positive `y` and `y'` that differ only at index
`k`, and every `t` that is not strictly between the two neighbours of knot `k`
(`t ≤ x[k-1]` or `t ≥ x[k+1]`), the handle built over `y`, once the ordinates have
become `y'` and `update()` has run, returns at `t` the value it returned before —
except, when the wrapped algorithm extrapolates linearly, for `t < x[0]` with `k = 1`
and for `t > x[n-1]` with `k = n-2`, where the changed knot ends the extended end
chord.  With `n ≥ 2` points the handle is indeed built and the update succeeds. -/
theorem logLinear_update_local (mode : Extrapolation) (xs ys ys' : List ℝ)
    (k : Nat) (t : ℝ)
    (hs : xs.Sorted (· < ·))
    (_hy : ys.length = xs.length) (_hy' : ys'.length = xs.length)
    (hp : AllPositive ys xs.length) (hp' : AllPositive ys' xs.length)
    (hdiff : ∀ j, j ≠ k → ys[j]? = ys'[j]?) (hout : OutsideNeighbours xs k t)
    (hrange : mode = Extrapolation.constant ∨
      ((xs.headD 0 ≤ t ∨ k ≠ 1) ∧ (t ≤ xs.getLastD 0 ∨ k + 2 ≠ xs.length))) :
    (∀ h h', LogLinearInterpolation (piecewiseLinearAlgorithm ℝ mode) Real.log xs ys = .ok h →
      LogLinearInterpolationImpl.update Real.log { h with yBegin := ys' } = (.ok (), h') →
      h'.value Real.exp t = h.value Real.exp t) ∧
    (2 ≤ xs.length →
      ∃ h h',
        LogLinearInterpolation (piecewiseLinearAlgorithm ℝ mode) Real.log xs ys = .ok h ∧
        LogLinearInterpolationImpl.update Real.log { h with yBegin := ys' }
          = (.ok (), h')) := by
  constructor
  · intro h h' hh hu
    have hlen := piecewiseLinearAlgorithm_handle_length mode Real.log xs ys h hh
    rw [piecewiseLinearAlgorithm_handle mode Real.log xs ys hlen hp] at hh
    have hh' := Except.ok.inj hh
    subst hh'
    rw [piecewiseLinearAlgorithm_update_changed mode Real.log xs ys ys' hlen hp'] at hu
    have hu' := (Prod.mk.inj hu).2
    subst hu'
    rw [piecewiseLinearAlgorithm_value, piecewiseLinearAlgorithm_value]
    simp only
    rw [linearValue_local mode xs (logBuffer Real.log ys xs.length)
      (logBuffer Real.log ys' xs.length) k t hs hlen (logBuffer_length _ _ _)
      (logBuffer_length _ _ _) (logBuffer_local Real.log ys ys' xs.length k hdiff) hout
      hrange]
  · intro hlen
    exact ⟨_, _, piecewiseLinearAlgorithm_handle mode Real.log xs ys hlen hp,
      piecewiseLinearAlgorithm_update_changed mode Real.log xs ys ys' hlen hp'⟩

/-- Witness for C6, amended: linear extrapolation, `x = [1, 2, 3, 4]`,
`y = [1, 2, 4, 8]`, `y' = [1, 2, 5, 8]` (changed at `k = 2`), evaluated at `t = 0`, to
the left of the knot range. -/
theorem logLinear_update_local_witness :
    ∃ h h', LogLinearInterpolation (piecewiseLinearAlgorithm ℝ Extrapolation.linear) Real.log
        [1, 2, 3, 4] [1, 2, 4, 8] = .ok h ∧
      LogLinearInterpolationImpl.update Real.log { h with yBegin := [1, 2, 5, 8] }
        = (.ok (), h') ∧
      h'.value Real.exp 0 = h.value Real.exp 0 :=
  have key := logLinear_update_local Extrapolation.linear [1, 2, 3, 4] [1, 2, 4, 8]
    [1, 2, 5, 8] 2 0
    (by norm_num [List.Sorted]) (by simp) (by simp)
    (by intro j hj
        simp only [List.length_cons, List.length_nil] at hj
        interval_cases j <;> norm_num [ordinate])
    (by intro j hj
        simp only [List.length_cons, List.length_nil] at hj
        interval_cases j <;> norm_num [ordinate])
    (by intro j hj
        match j, hj with
        | 0, _ => rfl
        | 1, _ => rfl
        | 2, hj => exact absurd rfl hj
        | 3, _ => rfl
        | (n + 4), _ => rfl)
    (Or.inl ⟨1, 2, rfl, by simp, by norm_num⟩)
    (Or.inr ⟨Or.inr (by decide), Or.inl (by norm_num [List.getLastD])⟩)
  have ⟨h, h', hh, hu⟩ := key.2 (by simp)
  ⟨h, h', hh, hu, key.1 h h' hh hu⟩

theorem sample_flat_allPositive :
    AllPositive ([1, 1, 1] : List ℝ) ([1, 2, 3] : List ℝ).length := by
  intro j hj
  simp only [List.length_cons, List.length_nil] at hj
  interval_cases j <;> norm_num [ordinate]

theorem sample_bump_allPositive :
    AllPositive ([1, 2, 1] : List ℝ) ([1, 2, 3] : List ℝ).length := by
  intro j hj
  simp only [List.length_cons, List.length_nil] at hj
  interval_cases j <;> norm_num [ordinate]

theorem sample_flat_value (t : ℝ) :
    LogLinearInterpolationImpl.value Real.exp
      ({ x := [1, 2, 3], yBegin := [1, 1, 1],
         logY := logBuffer Real.log [1, 1, 1] ([1, 2, 3] : List ℝ).length,
         interpolation := () } :
        LogLinearInterpolationImpl ℝ (piecewiseLinearAlgorithm ℝ Extrapolation.linear)) t
      = .ok 1 := by
  rw [piecewiseLinearAlgorithm_value]
  by_cases h : t ≤ 2 <;>
    simp [linearValue, piecewiseLinear, logBuffer, ordinate, List.range_succ, h]

theorem exp_neg_log_two : Real.exp (-Real.log 2) = 1 / 2 := by
  rw [Real.exp_neg, Real.exp_log (by norm_num)]
  norm_num

theorem sample_bump_logBuffer :
    logBuffer Real.log [1, 2, 1] ([1, 2, 3] : List ℝ).length = [0, Real.log 2, 0] := by
  simp [logBuffer, ordinate, List.range_succ]

theorem sample_bump_value_left :
    LogLinearInterpolationImpl.value Real.exp
      ({ x := [1, 2, 3], yBegin := [1, 2, 1],
         logY := logBuffer Real.log [1, 2, 1] ([1, 2, 3] : List ℝ).length,
         interpolation := () } :
        LogLinearInterpolationImpl ℝ (piecewiseLinearAlgorithm ℝ Extrapolation.linear)) 0
      = .ok (1 / 2) := by
  rw [piecewiseLinearAlgorithm_value]
  dsimp only
  rw [sample_bump_logBuffer]
  simp only [linearValue, piecewiseLinear]
  rw [if_pos (Or.inl (by norm_num)), ← exp_neg_log_two]
  congr 2
  ring

theorem sample_bump_value_right :
    LogLinearInterpolationImpl.value Real.exp
      ({ x := [1, 2, 3], yBegin := [1, 2, 1],
         logY := logBuffer Real.log [1, 2, 1] ([1, 2, 3] : List ℝ).length,
         interpolation := () } :
        LogLinearInterpolationImpl ℝ (piecewiseLinearAlgorithm ℝ Extrapolation.linear)) 4
      = .ok (1 / 2) := by
  rw [piecewiseLinearAlgorithm_value]
  dsimp only
  rw [sample_bump_logBuffer]
  simp only [linearValue, piecewiseLinear]
  have h1 : ¬ ((4 : ℝ) ≤ 2 ∨ ([3] : List ℝ) = []) := by norm_num
  rw [if_neg h1, if_pos (Or.inr trivial), ← exp_neg_log_two]
  congr 2
  ring

/-- C6 as stated fails when the wrapped linear algorithm extrapolates linearly: for
`x = [1, 2, 3]`, `y = [1, 1, 1]` and `y' = [1, 2, 1]` (changed at `k = 1` only), the
point `t = 0` satisfies `t ≤ x[k-1] = 1` and the point `t = 4` satisfies
`t ≥ x[k+1] = 3`, yet `value(0)` and `value(4)` are `1` before and `1/2` after the
update: the chords of the first and of the last segment, which are extended beyond
`x[0]` and `x[n-1]`, end at the changed knot. -/
theorem logLinear_update_not_local_at_end_chord :
    ∃ h h', LogLinearInterpolation (piecewiseLinearAlgorithm ℝ Extrapolation.linear) Real.log
        [1, 2, 3] [1, 1, 1] = .ok h ∧
      LogLinearInterpolationImpl.update Real.log { h with yBegin := [1, 2, 1] }
        = (.ok (), h') ∧
      ([1, 2, 3] : List ℝ).Sorted (· < ·) ∧
      AllPositive ([1, 1, 1] : List ℝ) 3 ∧ AllPositive ([1, 2, 1] : List ℝ) 3 ∧
      (∀ j, j ≠ 1 → ([1, 1, 1] : List ℝ)[j]? = ([1, 2, 1] : List ℝ)[j]?) ∧
      OutsideNeighbours ([1, 2, 3] : List ℝ) 1 0 ∧
      h.value Real.exp 0 = .ok 1 ∧ h'.value Real.exp 0 = .ok (1 / 2) ∧
      h'.value Real.exp 0 ≠ h.value Real.exp 0 ∧
      OutsideNeighbours ([1, 2, 3] : List ℝ) 1 4 ∧
      h.value Real.exp 4 = .ok 1 ∧ h'.value Real.exp 4 = .ok (1 / 2) ∧
      h'.value Real.exp 4 ≠ h.value Real.exp 4 := by
  refine ⟨_, _,
    piecewiseLinearAlgorithm_handle Extrapolation.linear Real.log [1, 2, 3] [1, 1, 1]
      (by simp) sample_flat_allPositive,
    piecewiseLinearAlgorithm_update_changed Extrapolation.linear Real.log [1, 2, 3] [1, 1, 1]
      [1, 2, 1] (by simp) sample_bump_allPositive,
    sample_sorted, sample_flat_allPositive, sample_bump_allPositive, ?_, ?_,
    sample_flat_value 0, sample_bump_value_left, ?_, ?_,
    sample_flat_value 4, sample_bump_value_right, ?_⟩
  · intro j hj
    match j, hj with
    | 0, _ => rfl
    | 1, hj => exact absurd rfl hj
    | 2, _ => rfl
    | (n + 3), _ => rfl
  · exact Or.inl ⟨0, 1, rfl, by simp, by norm_num⟩
  · rw [sample_flat_value, sample_bump_value_left]
    norm_num
  · exact Or.inr ⟨3, by simp, by norm_num⟩
  · rw [sample_flat_value, sample_bump_value_right]
    norm_num

/-! ### The end chords under linear extrapolation -/

theorem chord_ne_of_right_ne (a b t u v v' : R) (hab : a < b) (hta : t ≠ a) (hv : v ≠ v') :
    u + (t - a) * ((v - u) / (b - a)) ≠ u + (t - a) * ((v' - u) / (b - a)) := by
  intro h
  have hba : b - a ≠ 0 := sub_ne_zero.mpr (ne_of_gt hab)
  have h1 := mul_left_cancel₀ (sub_ne_zero.mpr hta) (add_left_cancel h)
  exact hv (sub_left_inj.mp ((div_left_inj' hba).mp h1))

theorem chord_ne_of_left_ne (a b t u u' v : R) (hab : a < b) (htb : t ≠ b) (hu : u ≠ u') :
    u + (t - a) * ((v - u) / (b - a)) ≠ u' + (t - a) * ((v - u') / (b - a)) := by
  intro h
  have hba : b - a ≠ 0 := sub_ne_zero.mpr (ne_of_gt hab)
  field_simp at h
  have key : (u - u') * (b - t) = 0 := by linear_combination h
  rcases mul_eq_zero.mp key with h0 | h0
  · exact hu (sub_eq_zero.mp h0)
  · exact htb (sub_eq_zero.mp h0).symm

theorem log_ne_of_getElem? {ys ys' : List ℝ} {n k : Nat} {w w' : ℝ}
    (hp : AllPositive ys n) (hp' : AllPositive ys' n) (hkn : k < n)
    (hk : ys[k]? = some w) (hk' : ys'[k]? = some w') (hne : w ≠ w') :
    Real.log w ≠ Real.log w' := by
  have hw : 0 < w := ordinate_of_getElem? hk ▸ hp k hkn
  have hw' : 0 < w' := ordinate_of_getElem? hk' ▸ hp' k hkn
  exact fun h => hne (Real.log_injOn_pos hw hw' h)

/-- With linear extrapolation, a change at a knot that ends an extended end chord is
always seen beyond that end: if `y` and `y'` differ at `k` and either `k = 1` and
`t < x[0]`, or `k = n-2` and `t > x[n-1]`, then `value(t)` after the update differs from
`value(t)` before. -/
theorem logLinear_update_changes_end_chord (xs ys ys' : List ℝ) (k : Nat) (t w w' : ℝ)
    (hs : xs.Sorted (· < ·)) (hlen : 2 ≤ xs.length)
    (hy : ys.length = xs.length) (hy' : ys'.length = xs.length)
    (hp : AllPositive ys xs.length) (hp' : AllPositive ys' xs.length)
    (hdiff : ∀ j, j ≠ k → ys[j]? = ys'[j]?)
    (hk : ys[k]? = some w) (hk' : ys'[k]? = some w') (hne : w ≠ w')
    (hcase : (t < xs.headD 0 ∧ k = 1) ∨ (xs.getLastD 0 < t ∧ k + 2 = xs.length)) :
    ∀ h h', LogLinearInterpolation (piecewiseLinearAlgorithm ℝ Extrapolation.linear)
        Real.log xs ys = .ok h →
      LogLinearInterpolationImpl.update Real.log { h with yBegin := ys' } = (.ok (), h') →
      h'.value Real.exp t ≠ h.value Real.exp t := by
  intro h h' hh hu
  rw [piecewiseLinearAlgorithm_handle Extrapolation.linear Real.log xs ys hlen hp] at hh
  have hh' := Except.ok.inj hh
  subst hh'
  rw [piecewiseLinearAlgorithm_update_changed Extrapolation.linear Real.log xs ys ys' hlen
    hp'] at hu
  have hu' := (Prod.mk.inj hu).2
  subst hu'
  rw [piecewiseLinearAlgorithm_value, piecewiseLinearAlgorithm_value]
  simp only [linearValue]
  intro heq
  have heq' := Real.exp_injective (Except.ok.inj heq)
  have hkn : k < xs.length := hy ▸ lt_length_of_getElem? hk
  have hlog := log_ne_of_getElem? hp hp' hkn hk hk' hne
  rcases hcase with ⟨ht, rfl⟩ | ⟨ht, hk2⟩
  · obtain ⟨a, ha⟩ := exists_getElem? xs 0 (by omega)
    obtain ⟨b, hb⟩ := exists_getElem? xs (0 + 1) (by omega)
    obtain ⟨u, hu0⟩ := exists_getElem? ys 0 (by omega)
    have hu0' : ys'[0]? = some u := (hdiff 0 (by omega)) ▸ hu0
    have hta : t < a := lt_of_lt_of_le ht (sorted_head_le hs ha)
    have hab : a < b := sorted_lt_of_getElem? hs ha hb
    have htb : t ≤ b := le_of_lt (lt_trans hta hab)
    rw [piecewiseLinear_chord xs _ 0 a b (Real.log u) (Real.log w) t hs ha hb
        (logBuffer_getElem? Real.log ys _ 0 u (by omega) hu0)
        (logBuffer_getElem? Real.log ys _ (0 + 1) w (by omega) hk)
        (Or.inl rfl) (Or.inr htb),
      piecewiseLinear_chord xs _ 0 a b (Real.log u) (Real.log w') t hs ha hb
        (logBuffer_getElem? Real.log ys' _ 0 u (by omega) hu0')
        (logBuffer_getElem? Real.log ys' _ (0 + 1) w' (by omega) hk')
        (Or.inl rfl) (Or.inr htb)] at heq'
    exact chord_ne_of_right_ne a b t _ _ _ hab (ne_of_lt hta) hlog heq'.symm
  · obtain ⟨a, ha⟩ := exists_getElem? xs k (by omega)
    obtain ⟨b, hb⟩ := exists_getElem? xs (k + 1) (by omega)
    obtain ⟨v, hv⟩ := exists_getElem? ys (k + 1) (by omega)
    have hv' : ys'[k + 1]? = some v := (hdiff (k + 1) (by omega)) ▸ hv
    have hab : a < b := sorted_lt_of_getElem? hs ha hb
    have hbt : b < t := lt_of_le_of_lt (sorted_le_last xs hs _ b hb) ht
    have hat : a ≤ t := le_of_lt (lt_trans hab hbt)
    rw [piecewiseLinear_chord xs _ k a b (Real.log w) (Real.log v) t hs ha hb
        (logBuffer_getElem? Real.log ys _ k w (by omega) hk)
        (logBuffer_getElem? Real.log ys _ (k + 1) v (by omega) hv)
        (Or.inr hat) (Or.inl hk2),
      piecewiseLinear_chord xs _ k a b (Real.log w') (Real.log v) t hs ha hb
        (logBuffer_getElem? Real.log ys' _ k w' (by omega) hk')
        (logBuffer_getElem? Real.log ys' _ (k + 1) v (by omega) hv')
        (Or.inr hat) (Or.inl hk2)] at heq'
    exact chord_ne_of_left_ne a b t _ _ _ hab (ne_of_gt hbt) hlog heq'.symm

end QuantLib
